import Mathlib

/-!
Verification development for the `kcfg-vex` kernel-configuration tracer.

The Rust sources (`src/kernel/tracer.rs`, `src/kernel/config.rs`,
`src/cve/vex.rs`, `src/cli/yocto_scan.rs`) are shallowly embedded below.
File-system access is modelled by an explicit map from paths to raw file
lines; the five Makefile-rule regexes are modelled character by character
with Rust `regex`-crate semantics (leftmost start position, greedy groups
with backtracking, ASCII word boundaries `\b`, whitespace classes `\s`).
-/

namespace KcfgVex

/-! ## Character classes (regex `\w`, `\s`, `[A-Z0-9_]`, `[A-Za-z0-9_-]`) -/

/-- Regex word character `\w` (ASCII): letters, digits, underscore. -/
def isWordChar (c : Char) : Bool :=
  c.isAlpha || c.isDigit || c = '_'

/-- Regex whitespace `\s` (ASCII): space, tab, newline, CR, vertical tab, form feed. -/
def isSpaceChar (c : Char) : Bool :=
  c = ' ' || c = '\t' || c = '\n' || c = '\r' || c = '\x0b' || c = '\x0c'

/-- Character class `[A-Z0-9_]` used inside `CONFIG_…` captures. -/
def isConfigChar (c : Char) : Bool :=
  ('A' ≤ c && c ≤ 'Z') || c.isDigit || c = '_'

/-- Container-name class `[A-Za-z0-9_-]` (tracer.rs line 41). -/
def isContainerChar (c : Char) : Bool :=
  c.isAlpha || c.isDigit || c = '_' || c = '-'

/-! ## Primitive list-of-char string operations -/

/-- Boolean list prefix test. -/
def lpre : List Char → List Char → Bool
  | [], _ => true
  | _ :: _, [] => false
  | a :: as, b :: bs => a = b && lpre as bs

/-- Substring containment, Rust `str::contains` on plain patterns. -/
def containsSub : List Char → List Char → Bool
  | s, pat =>
    lpre pat s ||
      match s with
      | [] => false
      | _ :: r => containsSub r pat

/-- Word-ness of an optional character; out-of-range counts as non-word. -/
def owc : Option Char → Bool
  | some c => isWordChar c
  | none => false

/-- Regex `\b`: a word boundary sits between two (optional) characters iff
exactly one side is a word character. -/
def wordBoundary (p n : Option Char) : Bool :=
  owc p != owc n

/-- Does `\b t \b` occur anywhere inside `s`, where `prev` is the character
immediately preceding `s` in the full line (`none` at line start)?  This is
the tail `.*\b<target>\b` shared by all five rule regexes. -/
def hasBoundedOcc (prev : Option Char) (s t : List Char) : Bool :=
  (lpre t s && wordBoundary prev t.head? &&
     wordBoundary t.getLast? (s.drop t.length).head?) ||
    match s with
    | [] => false
    | c :: r => hasBoundedOcc (some c) r t

/-- Parse `CONFIG_[A-Z0-9_]+\)` at the head of `s`; returns the captured
symbol (including the `CONFIG_` prefix) and the rest after `)`. -/
def parseConfigParen (s : List Char) : Option (List Char × List Char) :=
  if lpre "CONFIG_".data s then
    let rest := s.drop 7
    let run := rest.takeWhile isConfigChar
    if run.isEmpty then none
    else
      match rest.drop run.length with
      | ')' :: r2 => some ("CONFIG_".data ++ run, r2)
      | _ => none
  else none

/-- Parse `\s*[:+]?=\s` (or `\s*\+?=\s` when `allowColon = false`) at the head
of `s`; returns the single `\s` character consumed after `=` and the rest. -/
def parseAssign (allowColon : Bool) (s : List Char) : Option (Char × List Char) :=
  match s.dropWhile isSpaceChar with
  | '+' :: '=' :: c :: r => if isSpaceChar c then some (c, r) else none
  | ':' :: '=' :: c :: r =>
      if allowColon && isSpaceChar c then some (c, r) else none
  | '=' :: c :: r => if isSpaceChar c then some (c, r) else none
  | _ => none

/-! ## Rule regexes R1–R5 (tracer.rs lines 335–355 and 404–419)

Each matcher scans candidate start positions left to right (leftmost-match
semantics of `Regex::captures`) and at each position follows the greedy /
backtracking discipline of the pattern. -/

/-- Head+tail of `\bobj-\$\((CONFIG_[A-Z0-9_]+)\)\s*(…)=\s.*\b<t>\b` tried at
one start position; `allowColon` distinguishes R1 (`\+?=`) from the
directory-gate R5 (`[:+]?=`). -/
def objRuleAt (allowColon : Bool) (s t : List Char) : Option (List Char) :=
  if lpre "obj-$(".data s then
    match parseConfigParen (s.drop 6) with
    | some (cfg, r1) =>
        match parseAssign allowColon r1 with
        | some (sp, r2) => if hasBoundedOcc (some sp) r2 t then some cfg else none
        | none => none
    | none => none
  else none

/-- Leftmost-position scan for R1/R5. -/
def objFindFrom (allowColon : Bool) (prev : Option Char) (s t : List Char) :
    Option (List Char) :=
  match s with
  | [] => none
  | c :: rest =>
    match
      (if wordBoundary prev (some c) then objRuleAt allowColon s t else none) with
    | some cfg => some cfg
    | none => objFindFrom allowColon (some c) rest t

/-- R1 `\bobj-\$\((CONFIG_FOO)\)\s*\+?=\s.*\b<t>\b`: captured symbol. -/
def r1Find (line t : List Char) : Option (List Char) :=
  objFindFrom false none line t

/-- R5 `\bobj-\$\((CONFIG_QUX)\)\s*[:+]?=\s.*\b<sub/>\b`: captured symbol. -/
def r5Find (line t : List Char) : Option (List Char) :=
  objFindFrom true none line t

/-- The alternation `(?:y|m|\$\((CONFIG_[A-Z0-9_]+)\))` of R2. -/
def r2Alt (s : List Char) : Option (Option (List Char) × List Char) :=
  match s with
  | 'y' :: r => some (none, r)
  | 'm' :: r => some (none, r)
  | '$' :: '(' :: r =>
      match parseConfigParen r with
      | some (cfg, r2) => some (some cfg, r2)
      | none => none
  | _ => none

/-- One R2 attempt with group-1 length `k`. -/
def r2AttemptAt (s t : List Char) (k : Nat) :
    Option (List Char × Option (List Char)) :=
  match s.drop k with
  | '-' :: r =>
    match r2Alt r with
    | some (cfg?, r2) =>
      match parseAssign true r2 with
      | some (sp, r3) =>
          if hasBoundedOcc (some sp) r3 t then some (s.take k, cfg?)
          else none
      | none => none
    | none => none
  | _ => none

/-- Greedy group-1 backtracking for R2: try lengths `k, k-1, …, 1`. -/
def r2TryK (s t : List Char) : Nat → Option (List Char × Option (List Char))
  | 0 => none
  | k + 1 =>
    match r2AttemptAt s t (k + 1) with
    | some res => some res
    | none => r2TryK s t k

/-- Leftmost-position scan for R2
`\b([A-Za-z0-9_-]+)-(?:y|m|\$\((CONFIG_BAR)\))\s*[:+]?=\s.*\b<t>\b`. -/
def r2FindFrom (prev : Option Char) (s t : List Char) :
    Option (List Char × Option (List Char)) :=
  match s with
  | [] => none
  | c :: rest =>
    match
      (if wordBoundary prev (some c) then
         r2TryK s t (s.takeWhile isContainerChar).length
       else none) with
    | some res => some res
    | none => r2FindFrom (some c) rest t

def r2Find (line t : List Char) : Option (List Char × Option (List Char)) :=
  r2FindFrom none line t

/-- One R3 attempt with group-1 length `k`. -/
def r3AttemptAt (s t : List Char) (k : Nat) : Option (List Char) :=
  if lpre "-objs".data (s.drop k) then
    match parseAssign true ((s.drop k).drop 5) with
    | some (sp, r3) =>
        if hasBoundedOcc (some sp) r3 t then some (s.take k) else none
    | none => none
  else none

/-- Greedy group-1 backtracking for R3. -/
def r3TryK (s t : List Char) : Nat → Option (List Char)
  | 0 => none
  | k + 1 =>
    match r3AttemptAt s t (k + 1) with
    | some res => some res
    | none => r3TryK s t k

/-- Leftmost-position scan for R3 `\b([A-Za-z0-9_-]+)-objs\s*[:+]?=\s.*\b<t>\b`. -/
def r3FindFrom (prev : Option Char) (s t : List Char) : Option (List Char) :=
  match s with
  | [] => none
  | c :: rest =>
    match
      (if wordBoundary prev (some c) then
         r3TryK s t (s.takeWhile isContainerChar).length
       else none) with
    | some res => some res
    | none => r3FindFrom (some c) rest t

def r3Find (line t : List Char) : Option (List Char) :=
  r3FindFrom none line t

/-- One R4 attempt with group-1 length `k`. -/
def r4AttemptAt (s t : List Char) (k : Nat) : Option (List Char × List Char) :=
  if lpre "-objs-$(".data (s.drop k) then
    match parseConfigParen ((s.drop k).drop 8) with
    | some (cfg, r1) =>
      match parseAssign true r1 with
      | some (sp, r3) =>
          if hasBoundedOcc (some sp) r3 t then some (s.take k, cfg)
          else none
      | none => none
    | none => none
  else none

/-- Greedy group-1 backtracking for R4. -/
def r4TryK (s t : List Char) : Nat → Option (List Char × List Char)
  | 0 => none
  | k + 1 =>
    match r4AttemptAt s t (k + 1) with
    | some res => some res
    | none => r4TryK s t k

/-- Leftmost-position scan for R4
`\b([A-Za-z0-9_-]+)-objs-\$\((CONFIG_BAZ)\)\s*[:+]?=\s.*\b<t>\b`. -/
def r4FindFrom (prev : Option Char) (s t : List Char) :
    Option (List Char × List Char) :=
  match s with
  | [] => none
  | c :: rest =>
    match
      (if wordBoundary prev (some c) then
         r4TryK s t (s.takeWhile isContainerChar).length
       else none) with
    | some res => some res
    | none => r4FindFrom (some c) rest t

def r4Find (line t : List Char) : Option (List Char × List Char) :=
  r4FindFrom none line t

/-! ## Makefile reader (tracer.rs `read_makefile_lines_no_cache`, lines 259–298)

Raw file contents are modelled as the list of raw lines (Rust
`content.lines()`). -/

/-- Rust `str::trim_end` on a line (whitespace suffix removed). -/
def trimEndL (l : List Char) : List Char :=
  (l.reverse.dropWhile isSpaceChar).reverse

/-- Rust `str::trim` (both ends). -/
def trimL (l : List Char) : List Char :=
  (trimEndL l).dropWhile isSpaceChar

/-- Join backslash-continued lines: each raw line is right-trimmed; a
trailing `\` is dropped and the next line is appended after a space. -/
def foldContinuations (buf : List Char) : List String → List (List Char)
  | [] => if buf.isEmpty then [] else [buf]
  | line :: rest =>
    let s := trimEndL line.data
    match s.getLast? with
    | some '\\' => foldContinuations (buf ++ s.dropLast ++ [' ']) rest
    | _ => (buf ++ s) :: foldContinuations [] rest

/-- Regex `\s+ → " "` collapse (`patterns.whitespace.replace_all`). -/
def collapseWsAux : Bool → List Char → List Char
  | _, [] => []
  | prevSpace, c :: r =>
    if isSpaceChar c then
      if prevSpace then collapseWsAux true r
      else ' ' :: collapseWsAux true r
    else c :: collapseWsAux false r

def collapseWs (l : List Char) : List Char :=
  collapseWsAux false l

/-- Collapse whitespace, trim, and drop resulting empty lines. -/
def normalizeLines (joined : List (List Char)) : List (List Char) :=
  (joined.map (fun l => trimL (collapseWs l))).filter (fun l => !l.isEmpty)

/-- Logical Makefile lines from raw lines. -/
def processRaw (raw : List String) : List (List Char) :=
  normalizeLines (foldContinuations [] raw)

/-! ## File-system model and path operations

Paths are component lists (camino `Utf8PathBuf`); the file system maps the
path of each existing file to its raw lines. -/

abbrev FPath := List String

/-- One file: its component path and its raw lines. -/
structure Fs where
  files : List (FPath × List String)

/-- Rust `Path::exists`: a path exists if it is an existing file or a
directory containing one (i.e. a prefix of some file path). -/
def Fs.pathExists (fs : Fs) (p : FPath) : Bool :=
  fs.files.any (fun e => decide (p <+: e.1))

/-- Raw lines of a file (empty when absent). -/
def Fs.rawLines (fs : Fs) (p : FPath) : List String :=
  match fs.files.find? (fun e => e.1 = p) with
  | some e => e.2
  | none => []

/-- `read_makefile_lines`: missing files give an empty sequence. -/
def read_makefile_lines (fs : Fs) (p : FPath) : List (List Char) :=
  if fs.pathExists p then processRaw (fs.rawLines p) else []

/-- Split a relative path string on `/`, dropping empty and `.` components
(camino component normalization). -/
def splitSlash : List Char → List (List Char)
  | [] => [[]]
  | '/' :: r => [] :: splitSlash r
  | c :: r =>
    match splitSlash r with
    | [] => [[c]]
    | h :: t => (c :: h) :: t

def splitRel (s : List Char) : List String :=
  ((splitSlash s).map String.mk).filter (fun c => !(c == "" || c == "."))

/-- `trim_start_matches("./")`: strip every leading `./`. -/
def stripDotSlash : List Char → List Char
  | '.' :: '/' :: r => stripDotSlash r
  | l => l

/-- `Path::parent`. -/
def parentOf (p : FPath) : Option FPath :=
  if p.isEmpty then none else some p.dropLast

/-- `Path::file_name` (defaulted to `""`; the source `unwrap`s). -/
def fileNameD (p : FPath) : String :=
  p.getLast?.getD ""

/-- `Path::starts_with` (tracer.rs `is_within`). -/
def is_within (p root : FPath) : Bool :=
  decide (root <+: p)

/-- Display a path: components joined by `/` (camino `Display`). -/
def pathStr (p : FPath) : String :=
  String.intercalate "/" p

/-- Rust `Path::with_extension("o")` applied to a file name: the part after
the last `.` (ignoring a leading dot with no other dots) is replaced by `o`;
a name without an extension gets `.o` appended. -/
def setExtO (name : String) : String :=
  let cs := name.data
  let stem :=
    match (cs.reverse.takeWhile (fun c => c ≠ '.')).length with
    | k =>
      if k + 1 ≤ cs.length ∧ cs.length - (k + 1) ≥ 1 then cs.take (cs.length - (k + 1))
      else cs
  String.mk (stem ++ ".o".data)

/-- `Path::with_extension("o")` on a whole path. -/
def withExtO (p : FPath) : FPath :=
  p.dropLast ++ [setExtO (fileNameD p)]

/-- `Path::strip_prefix`. -/
def stripPre (p pre : FPath) : Option FPath :=
  if pre <+: p then some (p.drop pre.length) else none

/-- Rust `String::replace(".c", ".o")`: every non-overlapping occurrence of
`.c` is replaced (tracer.rs line 92). -/
def replaceCO : List Char → List Char
  | '.' :: 'c' :: r => '.' :: 'o' :: replaceCO r
  | c :: r => c :: replaceCO r
  | [] => []

/-- tracer.rs `object_path_relative_to`. -/
def object_path_relative_to (srcPath ancestorDir : FPath) : String :=
  match stripPre (withExtO srcPath) ancestorDir with
  | some rel => pathStr rel
  | none => fileNameD (withExtO srcPath)

/-- tracer.rs `get_makefile_path`. -/
def get_makefile_path (fs : Fs) (dir : FPath) : Option FPath :=
  let p := dir ++ ["Makefile"]
  if fs.pathExists p then some p else none

/-! ## Target matcher (tracer.rs `scan_makefile_for_targets`, lines 300–426) -/

structure ScanResult where
  configs_for_target : List String
  containers : List String
deriving DecidableEq, Repr

/-- HashSet-style insertion: membership-guarded append. -/
def insertIfAbsent (x : String) (l : List String) : List String :=
  if x ∈ l then l else l ++ [x]

/-- Space-joined Makefile text used by the substring early-out. -/
def joinSp : List (List Char) → List Char
  | [] => []
  | [l] => l
  | l :: ls => l ++ ' ' :: joinSp ls

/-- The trimmed-and-slash-terminated subdir literal of the R5 pattern. -/
def subdirTarget (d : String) : List Char :=
  (d.data.reverse.dropWhile (fun c => c = '/')).reverse ++ ['/']

/-- Rule 1 contribution of one line (tracer.rs lines 359–366). -/
def applyR1 (target : List Char) (acc : ScanResult) (line : List Char) :
    ScanResult :=
  match r1Find line target with
  | some cfg =>
      { acc with configs_for_target :=
          insertIfAbsent (String.mk cfg) acc.configs_for_target }
  | none => acc

/-- Rule 2 contribution (lines 368–380). -/
def applyR2 (target : List Char) (acc : ScanResult) (line : List Char) :
    ScanResult :=
  match r2Find line target with
  | some (g1, cfg?) =>
      let acc :=
        { acc with containers :=
            insertIfAbsent (String.mk g1 ++ ".o") acc.containers }
      match cfg? with
      | some cfg =>
          { acc with configs_for_target :=
              insertIfAbsent (String.mk cfg) acc.configs_for_target }
      | none => acc
  | none => acc

/-- Rule 3 contribution (lines 382–389). -/
def applyR3 (target : List Char) (acc : ScanResult) (line : List Char) :
    ScanResult :=
  match r3Find line target with
  | some g1 =>
      { acc with containers :=
          insertIfAbsent (String.mk g1 ++ ".o") acc.containers }
  | none => acc

/-- Rule 4 contribution (lines 391–401). -/
def applyR4 (target : List Char) (acc : ScanResult) (line : List Char) :
    ScanResult :=
  match r4Find line target with
  | some (g1, cfg) =>
      { acc with
          containers := insertIfAbsent (String.mk g1 ++ ".o") acc.containers,
          configs_for_target :=
            insertIfAbsent (String.mk cfg) acc.configs_for_target }
  | none => acc

/-- Rule 5 (directory gate) contribution (lines 404–419). -/
def applyR5 (subdir : Option String) (acc : ScanResult) (line : List Char) :
    ScanResult :=
  match subdir with
  | some d =>
    match r5Find line (subdirTarget d) with
    | some cfg =>
        { acc with configs_for_target :=
            insertIfAbsent (String.mk cfg) acc.configs_for_target }
    | none => acc
  | none => acc

/-- Per-line contribution of the five rules (source lines 357–420): rules
R1–R4 run only when the target occurs in the joined text, R5 only with a
subdir hint; each rule contributes its leftmost match's captures. -/
def scanLine (tm : Bool) (target : List Char) (subdir : Option String)
    (acc : ScanResult) (line : List Char) : ScanResult :=
  let acc :=
    if tm then
      applyR4 target (applyR3 target (applyR2 target
        (applyR1 target acc line) line) line) line
    else acc
  applyR5 subdir acc line

/-- tracer.rs `scan_makefile_for_targets`. -/
def scan_makefile_for_targets (fs : Fs) (makefilePath : FPath) (target : String)
    (subdir : Option String) : ScanResult :=
  let lines := read_makefile_lines fs makefilePath
  if target.data.isEmpty then ⟨[], []⟩
  else
    let targetsMentioned := containsSub (joinSp lines) target.data
    if !targetsMentioned && subdir.isNone then ⟨[], []⟩
    else lines.foldl (scanLine targetsMentioned target.data subdir) ⟨[], []⟩

/-! ## Tracer (tracer.rs `trace_kernel_config`, lines 74–229) -/

structure TraceEdge where
  src : String
  dst : String
  via : String
deriving DecidableEq, Repr

structure TraceResult where
  file : String
  objects : List String
  symbols : List String
  edges : List TraceEdge
  error : Option String
deriving DecidableEq, Repr

/-- A work-queue tuple `(target, directory, subdir_hint, source_target)`. -/
structure QItem where
  target : String
  dir : FPath
  hint : Option String
  srcT : String
deriving DecidableEq, Repr

/-- BFS state: accumulated sets, the visited-key list, and the live queue. -/
structure TState where
  symbols : List String
  objects : List String
  edges : List TraceEdge
  visited : List String
  queue : List QItem
deriving Repr

/-- Parent-directory seeds (tracer.rs lines 132–151), walking `file_dir`'s
ancestors strictly inside the source root. -/
def parentSeedsGo (root srcPath : FPath) (objName : String) :
    Nat → FPath → List QItem
  | 0, _ => []
  | n + 1, scanChild =>
    match parentOf scanChild with
    | none => []
    | some parentDir =>
      if !is_within parentDir root || parentDir = root then []
      else
        ⟨object_path_relative_to srcPath parentDir, parentDir,
          some (fileNameD scanChild), objName⟩ ::
          parentSeedsGo root srcPath objName n parentDir

def parentSeeds (root srcPath : FPath) (objName : String) : List QItem :=
  parentSeedsGo root srcPath objName srcPath.length srcPath.dropLast

/-- The initial work queue (tracer.rs lines 111–151). -/
def initQueue (root srcPath : FPath) (objName : String) : List QItem :=
  let fileDir := srcPath.dropLast
  ⟨objName, fileDir, none, objName⟩ ::
    ((match stripPre (withExtO srcPath) fileDir with
      | some rel =>
          if pathStr rel ≠ objName then [⟨pathStr rel, fileDir, none, objName⟩]
          else []
      | none => []) ++
      parentSeeds root srcPath objName)

/-- The deduplication key `"<target>@<directory>"` (tracer.rs line 160). -/
def keyOf (it : QItem) : String :=
  it.target ++ "@" ++ pathStr it.dir

/-- Record one found `CONFIG_*` symbol: insert it and emit the edge
`<source_target>@<file_dir> → CONFIG:<sym>` (tracer.rs lines 172–184). -/
def symStep (srcLabel viaSym : String) (s : TState) (cfg : String) : TState :=
  { s with
      symbols := insertIfAbsent cfg s.symbols,
      edges := s.edges ++ [⟨srcLabel, "CONFIG:" ++ cfg, viaSym⟩] }

/-- Record one found container: when it is new, add it to `objects`, emit the
edge `<target>@<dir> → <container>@<dir>`, and enqueue it (lines 187–207). -/
def conStep (tgt : String) (dir : FPath) (viaC srcT : String) (s : TState)
    (c : String) : TState :=
  if c ∈ s.objects then s
  else
    { s with
        objects := s.objects ++ [c],
        edges := s.edges ++
          [⟨tgt ++ "@" ++ pathStr dir, c ++ "@" ++ pathStr dir, viaC⟩],
        queue := s.queue ++ [⟨c, dir, none, srcT⟩] }

/-- Process one queue tuple (body of the BFS `for` loop, lines 158–209). -/
def processItem (fs : Fs) (fileDirStr : String) (st : TState) (it : QItem) :
    TState :=
  if keyOf it ∈ st.visited then st
  else
    let st := { st with visited := st.visited ++ [keyOf it] }
    match get_makefile_path fs it.dir with
    | none => st
    | some mf =>
      let scan := scan_makefile_for_targets fs mf it.target it.hint
      let viaSym :=
        if it.hint.isSome then "parent directory gate" else "makefile rule"
      let st :=
        scan.configs_for_target.foldl
          (symStep (it.srcT ++ "@" ++ fileDirStr) viaSym) st
      let viaC :=
        if it.hint.isSome then "parent container includes target"
        else "container includes target"
      scan.containers.foldl (conStep it.target it.dir viaC it.srcT) st

/-- One outer BFS iteration: drain the queue into a batch and process it. -/
def processBatch (fs : Fs) (fileDirStr : String) (st : TState) : TState :=
  st.queue.foldl (processItem fs fileDirStr) { st with queue := [] }

/-- The fuelled BFS loop (`while !processing_queue.is_empty()`); the fuel
passed by `trace_kernel_config` provably drains the queue. -/
def traceLoop (fs : Fs) (fileDirStr : String) : Nat → TState → TState
  | 0, st => st
  | fuel + 1, st =>
    if st.queue.isEmpty then st
    else traceLoop fs fileDirStr fuel (processBatch fs fileDirStr st)

/-- An upper bound on the number of distinct container names any Makefile
line can contribute: more than `(n+1)²` substrings cannot exist. -/
def lineBound (l : List Char) : Nat :=
  (l.length + 1) * (l.length + 1)

/-- Fuel that provably suffices to drain the BFS queue. -/
def boundFuel (fs : Fs) : Nat :=
  (fs.files.map
    (fun e => ((processRaw e.2).map lineBound).sum)).sum + 2

/-- The object name seeded from the source file: `file_name` with every
`.c` occurrence replaced by `.o` (tracer.rs line 92). -/
def objNameOf (root : FPath) (relFile : String) : String :=
  String.mk (replaceCO (fileNameD (root ++ splitRel (stripDotSlash (trimL relFile.data)))).data)

/-- The resolved source path of a trace input. -/
def srcPathOf (root : FPath) (relFile : String) : FPath :=
  root ++ splitRel (stripDotSlash (trimL relFile.data))

/-- The initial BFS state of a trace (tracer.rs lines 103–151). -/
def traceInitState (root : FPath) (relFile : String) : TState :=
  let srcPath := srcPathOf root relFile
  let objName := objNameOf root relFile
  { symbols := [], objects := [objName], edges := [], visited := [],
    queue := initQueue root srcPath objName }

/-- The `file_dir` display string used in symbol-edge source labels. -/
def fileDirStrOf (root : FPath) (relFile : String) : String :=
  pathStr (srcPathOf root relFile).dropLast

/-- The final BFS state of a trace (used to state the termination and
one-visit properties). -/
def traceFinalState (fs : Fs) (root : FPath) (relFile : String) : TState :=
  traceLoop fs (fileDirStrOf root relFile) (boundFuel fs)
    (traceInitState root relFile)

/-- tracer.rs `trace_kernel_config`. -/
def trace_kernel_config (fs : Fs) (root : FPath) (relFile : String) :
    TraceResult :=
  let srcPath := srcPathOf root relFile
  if !fs.pathExists srcPath then
    { file := relFile, objects := [], symbols := [], edges := [],
      error := some ("File not found in source tree: " ++ pathStr srcPath) }
  else
    let fin := traceFinalState fs root relFile
    { file := relFile, objects := fin.objects, symbols := fin.symbols,
      edges := fin.edges, error := none }

/-! ## DotConfig (config.rs) -/

/-- `DotConfig`: the parsed symbol→value map.  The Rust `HashMap` is
modelled as an association list whose insertion overwrites existing keys. -/
structure DotConfig where
  values : List (String × String)
deriving DecidableEq, Repr

/-- `HashMap::insert`: overwrite an existing binding or append a new one. -/
def insertAssoc (k v : String) (l : List (String × String)) :
    List (String × String) :=
  match l with
  | [] => [(k, v)]
  | (k', v') :: r =>
      if k' = k then (k, v) :: r else (k', v') :: insertAssoc k v r

/-- `HashMap::get`. -/
def lookupAssoc (l : List (String × String)) (k : String) : Option String :=
  match l with
  | [] => none
  | (k', v') :: r => if k' = k then some v' else lookupAssoc r k

/-- Index of the first `=` in a line (Rust `str::find('=')`). -/
def findEq (cs : List Char) : Option Nat :=
  match cs with
  | [] => none
  | c :: r => if c = '=' then some 0 else (findEq r).map (· + 1)

/-- One iteration of the `from_text` line loop (config.rs lines 20–43),
kept branch-for-branch faithful: any line starting with `#` is skipped
before the `# CONFIG_… is not set` branch can be reached. -/
def fromTextLine (values : List (String × String)) (rawLine : String) :
    List (String × String) :=
  let line := trimL rawLine.data
  if line.isEmpty || lpre ['#'] line then values
  else if lpre "CONFIG_".data line then
    match findEq line with
    | some eqPos =>
        insertAssoc (String.mk (line.take eqPos))
          (String.mk (line.drop (eqPos + 1))) values
    | none => values
  else if lpre "# CONFIG_".data line && lpre " is not set".data.reverse line.reverse then
    insertAssoc
      (String.mk ((line.drop 2).take (line.length - " is not set".length - 2)))
      "n" values
  else values

/-- Split on newline characters (Rust `str::lines`; the parser skips empty
lines and `trim` removes `\r`, so edge differences are immaterial). -/
def splitNl : List Char → List (List Char)
  | [] => [[]]
  | '\n' :: r => [] :: splitNl r
  | c :: r =>
    match splitNl r with
    | [] => [[c]]
    | h :: t => (c :: h) :: t

/-- `DotConfig::from_text`. -/
def DotConfig.from_text (text : String) : DotConfig :=
  ⟨((splitNl text.data).map String.mk).foldl fromTextLine []⟩

/-- `DotConfig::is_enabled` (config.rs lines 48–57). -/
def DotConfig.is_enabled (c : DotConfig) (symbol : String)
    (include_modules : Bool) : Bool :=
  match lookupAssoc c.values symbol with
  | some v => if v = "y" then true else if v = "m" then include_modules else false
  | none => false

/-- `DotConfig::enabled_set` (config.rs lines 59–68); the `HashSet` is
modelled as the list of enabled keys. -/
def DotConfig.enabled_set (c : DotConfig) (include_modules : Bool) :
    List String :=
  (c.values.filter
    (fun kv => kv.2 = "y" || (kv.2 = "m" && include_modules))).map (·.1)

/-! ## VEX derivation and document construction (cve/vex.rs) -/

structure VexEntry where
  cve_id : String
  state : String
  justification : Option String
  detail : String
  component_refs : List String
deriving DecidableEq, Repr

structure VexSource where
  name : String
  url : String
deriving DecidableEq, Repr

structure VexAnalysis where
  state : String
  detail : String
  /-- `#[serde(skip_serializing_if = "Option::is_none")]`: the field is
  serialized exactly when this option is `some`. -/
  justification : Option String
deriving DecidableEq, Repr

structure VexVulnerability where
  id : String
  source : VexSource
  analysis : VexAnalysis
  affects : List String
deriving DecidableEq, Repr

structure CycloneDxVex where
  bom_format : String
  spec_version : String
  version : Nat
  serial_number : String
  timestamp : String
  vulnerabilities : List VexVulnerability
deriving DecidableEq, Repr

/-- `derive_vex_state` (vex.rs lines 82–110). -/
def derive_vex_state (is_enabled : Bool) (union_symbols : List String) :
    String × Option String × String :=
  if union_symbols.isEmpty then
    ("under_investigation", none,
      "Could not infer enabling symbols for listed programFiles")
  else if is_enabled then
    ("affected", none, "Enabled symbols: " ++ String.intercalate ", " union_symbols)
  else
    ("not_affected", some "code_not_reachable",
      "Required symbols present in source but not enabled in provided .config: " ++
        String.intercalate ", " union_symbols)

/-- Per-entry vulnerability construction inside `build_vex` (vex.rs lines
117–144).  The analysis is initialized with the entry's justification and
then redundantly re-assigned the same value when the state is
`not_affected`. -/
def vulnOfEntry (entry : VexEntry) : VexVulnerability :=
  let analysis : VexAnalysis :=
    { state := entry.state, detail := entry.detail,
      justification := entry.justification }
  let analysis :=
    if entry.state = "not_affected" then
      { analysis with justification := entry.justification }
    else analysis
  { id := entry.cve_id,
    source := { name := "NVD",
                url := "https://nvid.nist.gov/vuln/detail/" ++ entry.cve_id },
    analysis := analysis,
    affects := entry.component_refs }

/-- `build_vex` (vex.rs lines 112–159); the wall clock and the fresh UUID
are passed in as parameters of the embedding. -/
def build_vex (entries : List VexEntry) (spec_version : Option String)
    (serial_number : Option String) (now freshUuid : String) : CycloneDxVex :=
  { bom_format := "CycloneDX",
    spec_version := spec_version.getD "1.4",
    version := 1,
    serial_number := serial_number.getD ("urn:uuid:" ++ freshUuid),
    timestamp := now,
    vulnerabilities := entries.map vulnOfEntry }

/-- The `is_enabled` flag computed by the pipeline
(`process_single_cve_with_configs`, yocto_scan.rs lines 324–331): the union
set intersects the enabled set, and a missing configuration gives `false`. -/
def pipelineIsEnabled (enabledSymbols : Option (List String))
    (unionSymbols : List String) : Bool :=
  match enabledSymbols with
  | some enabled => !(unionSymbols.filter (fun s => s ∈ enabled)).isEmpty
  | none => false

/-! ## Spec-side definitions (for refinement comparisons) -/

/-- Modelled from the spec's words (§3 Target name, property 8.1): the
object derived from a file name by replacing the trailing `.c` suffix —
and only that suffix — by `.o`, preserving the rest of the base name. -/
def specSuffixObject (name : String) : String :=
  if "c.".data.reverse <:+ name.data then
    String.mk (name.data.dropLast ++ ['o'])
  else name

/-- Character-level string prefix test. -/
def strPre (a b : String) : Bool :=
  lpre a.data b.data

/-- The claim's edge-endpoint predicate (spec invariant 3): a label either
is `t@<dir>` for a discovered object `t` or `CONFIG:<sym>` for a discovered
symbol. -/
def labelOkB (r : TraceResult) (l : String) : Bool :=
  r.objects.any (fun t => strPre (t ++ "@") l) ||
    r.symbols.any (fun s => l = "CONFIG:" ++ s)

/-- The `t@<dir>` labels of the trace's initial seed targets (the seed
object, its extension-derived variant, and the parent-relative targets). -/
def seedLabels (root : FPath) (relFile : String) : List String :=
  (initQueue root (srcPathOf root relFile) (objNameOf root relFile)).map keyOf

/-! ## Basic lemmas: insertion, state extension, loop unfolding -/

theorem mem_insertIfAbsent_self (x : String) (l : List String) :
    x ∈ insertIfAbsent x l := by
  unfold insertIfAbsent
  split
  · assumption
  · exact List.mem_append_right _ (List.mem_singleton.mpr rfl)

theorem subset_insertIfAbsent (x : String) (l : List String) :
    l ⊆ insertIfAbsent x l := by
  unfold insertIfAbsent
  split
  · exact fun _ h => h
  · exact fun _ h => List.mem_append_left _ h

/-- Component-wise growth of the accumulated sets (the queue is managed
separately by the batch discipline). -/
def StExt (s s' : TState) : Prop :=
  s.symbols ⊆ s'.symbols ∧ s.objects ⊆ s'.objects ∧ s.edges ⊆ s'.edges ∧
    s.visited ⊆ s'.visited

theorem StExt.refl (s : TState) : StExt s s :=
  ⟨fun _ h => h, fun _ h => h, fun _ h => h, fun _ h => h⟩

theorem StExt.trans {a b c : TState} (h1 : StExt a b) (h2 : StExt b c) :
    StExt a c :=
  ⟨h1.1.trans h2.1, h1.2.1.trans h2.2.1, h1.2.2.1.trans h2.2.2.1,
    h1.2.2.2.trans h2.2.2.2⟩

theorem symStep_ext (a b : String) (s : TState) (c : String) :
    StExt s (symStep a b s c) := by
  refine ⟨subset_insertIfAbsent _ _, fun _ h => h, fun _ h => ?_, fun _ h => h⟩
  exact List.mem_append_left _ h

theorem conStep_ext (t : String) (d : FPath) (v w : String) (s : TState)
    (c : String) : StExt s (conStep t d v w s c) := by
  unfold conStep
  split
  · exact StExt.refl s
  · exact ⟨fun _ h => h, fun _ h => List.mem_append_left _ h,
      fun _ h => List.mem_append_left _ h, fun _ h => h⟩

theorem foldl_ext {α : Type} (f : TState → α → TState)
    (hf : ∀ s x, StExt s (f s x)) :
    ∀ (l : List α) (s : TState), StExt s (l.foldl f s)
  | [], s => StExt.refl s
  | x :: r, s => (hf s x).trans (foldl_ext f hf r (f s x))

theorem visitedStep_ext (st : TState) (k : String) :
    StExt st { st with visited := st.visited ++ [k] } :=
  ⟨fun _ h => h, fun _ h => h, fun _ h => h, fun _ h => List.mem_append_left _ h⟩

theorem processItem_ext (fs : Fs) (d : String) (st : TState) (it : QItem) :
    StExt st (processItem fs d st it) := by
  unfold processItem
  split
  · exact StExt.refl st
  · split
    · exact visitedStep_ext st _
    · exact (visitedStep_ext st _).trans
        ((foldl_ext _ (fun s x => symStep_ext _ _ s x) _ _).trans
          (foldl_ext _ (fun s x => conStep_ext _ _ _ _ s x) _ _))

theorem foldl_processItem_ext (fs : Fs) (d : String) :
    ∀ (l : List QItem) (s : TState), StExt s (l.foldl (processItem fs d) s)
  | [], s => StExt.refl s
  | x :: r, s =>
    (processItem_ext fs d s x).trans
      (foldl_processItem_ext fs d r (processItem fs d s x))

theorem processBatch_ext (fs : Fs) (d : String) (st : TState) :
    StExt st (processBatch fs d st) := by
  unfold processBatch
  exact (foldl_processItem_ext fs d st.queue { st with queue := [] })

theorem traceLoop_ext (fs : Fs) (d : String) :
    ∀ (f : Nat) (st : TState), StExt st (traceLoop fs d f st)
  | 0, st => StExt.refl st
  | f + 1, st => by
    rw [traceLoop]
    split
    · exact StExt.refl st
    · exact (processBatch_ext fs d st).trans
        (traceLoop_ext fs d f (processBatch fs d st))

/-- A state with an empty queue is a fixed point of the loop. -/
theorem traceLoop_of_empty (fs : Fs) (d : String) :
    ∀ (f : Nat) (st : TState), st.queue = [] → traceLoop fs d f st = st
  | 0, _, _ => rfl
  | f + 1, st, h => by rw [traceLoop, if_pos (by simp [h])]

/-- Once the fuel drains the queue, extra fuel does not change the result. -/
theorem traceLoop_fuel_eq (fs : Fs) (d : String) :
    ∀ (f : Nat) (st : TState), (traceLoop fs d f st).queue = [] →
      ∀ k, traceLoop fs d (f + k) st = traceLoop fs d f st
  | 0, st, h, k => by
    simpa using traceLoop_of_empty fs d k st h
  | f + 1, st, h, k => by
    by_cases hq : st.queue.isEmpty
    · rw [traceLoop_of_empty fs d _ st (by simpa using hq),
        traceLoop_of_empty fs d _ st (by simpa using hq)]
    · have e1 : traceLoop fs d (f + 1) st =
          traceLoop fs d f (processBatch fs d st) := by
        rw [traceLoop, if_neg hq]
      have e2 : traceLoop fs d (f + 1 + k) st =
          traceLoop fs d (f + k) (processBatch fs d st) := by
        have : f + 1 + k = (f + k) + 1 := by omega
        rw [this, traceLoop, if_neg hq]
      rw [e1] at h
      rw [e2, e1, traceLoop_fuel_eq fs d f (processBatch fs d st) h k]

/-- Unfolding of `trace_kernel_config` on an existing file. -/
theorem trace_eq_of_found (fs : Fs) (root : FPath) (relFile : String)
    (hex : fs.pathExists (srcPathOf root relFile) = true) :
    trace_kernel_config fs root relFile =
      { file := relFile, objects := (traceFinalState fs root relFile).objects,
        symbols := (traceFinalState fs root relFile).symbols,
        edges := (traceFinalState fs root relFile).edges, error := none } := by
  unfold trace_kernel_config
  simp only [hex, Bool.not_true, Bool.false_eq_true, if_false]

/-- Unfolding of `trace_kernel_config` on a missing file. -/
theorem trace_eq_of_missing (fs : Fs) (root : FPath) (relFile : String)
    (hex : fs.pathExists (srcPathOf root relFile) = false) :
    trace_kernel_config fs root relFile =
      { file := relFile, objects := [], symbols := [], edges := [],
        error := some ("File not found in source tree: " ++
          pathStr (srcPathOf root relFile)) } := by
  unfold trace_kernel_config
  simp only [hex, Bool.not_false, if_true]

/-- The initial state's objects are exactly the seed object. -/
theorem traceInitState_objects (root : FPath) (relFile : String) :
    (traceInitState root relFile).objects = [objNameOf root relFile] := rfl

/-! ## Claim C1 — directory-gate detection (scenario S3) -/

/-- The S3 tree: `drivers/Makefile` gates `sub/`, `drivers/sub/Makefile`
builds `m.o` unconditionally, and `drivers/sub/m.c` exists. -/
def fsDirGate : Fs :=
  ⟨[(["r", "drivers", "Makefile"], ["obj-$(CONFIG_P) += sub/"]),
    (["r", "drivers", "sub", "Makefile"], ["obj-y += m.o"]),
    (["r", "drivers", "sub", "m.c"], [])]⟩

/-- **C1.** The claim says tracing `drivers/sub/m.c` over the S3 tree puts
`CONFIG_P` into the symbol set via the directory-gate rule R5.  The code
disagrees: the gate regex ends in `\bsub/\b`, and a word boundary after the
non-word `/` requires a following word character, so the canonical line
`obj-$(CONFIG_P) += sub/` (which ends at the slash) never matches.  The
trace of the S3 tree returns an empty symbol set. -/
theorem claim_C1_dir_gate_eval :
    (trace_kernel_config fsDirGate ["r"] "drivers/sub/m.c").symbols = [] ∧
    "CONFIG_P" ∉ (trace_kernel_config fsDirGate ["r"] "drivers/sub/m.c").symbols ∧
    (trace_kernel_config fsDirGate ["r"] "drivers/sub/m.c").error = none ∧
    r5Find "obj-$(CONFIG_P) += sub/".data (subdirTarget "sub") = none ∧
    r5Find "obj-$(CONFIG_P) += sub/x.o".data (subdirTarget "sub") =
      some "CONFIG_P".data := by
  decide

/-! ## Claim C2 — `# CONFIG_X is not set` handling in `DotConfig::from_text` -/

/-- **C2.** The claim (and the spec) say `from_text` records `"n"` for every
`# CONFIG_X is not set` line.  In the code every line starting with `#` is
skipped by the comment guard (config.rs line 24) before the dedicated
not-set branch (line 37) can run, so that branch is dead and no entry is
recorded; ordinary `CONFIG_…=v` lines still parse. -/
theorem claim_C2_not_set_dead :
    (DotConfig.from_text "# CONFIG_FOO is not set").values = [] ∧
    lookupAssoc
      (DotConfig.from_text "CONFIG_BAR=y\n# CONFIG_FOO is not set").values
      "CONFIG_FOO" = none ∧
    lookupAssoc
      (DotConfig.from_text "CONFIG_BAR=y\n# CONFIG_FOO is not set").values
      "CONFIG_BAR" = some "y" := by
  decide

/-! ## Claim C6 — justification serialization in `build_vex` -/

/-- **C6.** The claim says a vulnerability's analysis carries a justification
only when the entry's state is `not_affected`.  In `build_vex` the analysis
is initialized with `entry.justification` for every state and the
`not_affected` branch merely re-assigns the same value, so an `affected`
entry with a justification keeps (and hence serializes) it. -/
theorem claim_C6_justification_kept_for_affected :
    ((build_vex
        [⟨"CVE-2024-0001", "affected", some "code_not_reachable", "detail",
          ["ref1"]⟩]
        none none "2024-01-01T00:00:00Z" "00000000").vulnerabilities.map
      (fun v => (v.analysis.state, v.analysis.justification))) =
      [("affected", some "code_not_reachable")] ∧
    ((build_vex
        [⟨"CVE-2024-0002", "under_investigation", some "code_not_reachable",
          "detail", ["ref1"]⟩]
        none none "2024-01-01T00:00:00Z" "00000000").vulnerabilities.map
      (fun v => v.analysis.justification)) = [some "code_not_reachable"] := by
  decide

/-! ## Claim C4 — verdict deriver totality and table -/

/-- **C4.** `derive_vex_state` is total and follows the three-row table, and
the pipeline treats a missing configuration as `is_enabled = false`. -/
theorem claim_C4_verdict_table (b : Bool) (u : List String) :
    (u = [] → derive_vex_state b u =
      ("under_investigation", none,
        "Could not infer enabling symbols for listed programFiles")) ∧
    (u ≠ [] → b = true → derive_vex_state b u =
      ("affected", none,
        "Enabled symbols: " ++ String.intercalate ", " u)) ∧
    (u ≠ [] → b = false → derive_vex_state b u =
      ("not_affected", some "code_not_reachable",
        "Required symbols present in source but not enabled in provided .config: " ++
          String.intercalate ", " u)) ∧
    ((derive_vex_state b u).1 = "under_investigation" ∨
      (derive_vex_state b u).1 = "affected" ∨
      (derive_vex_state b u).1 = "not_affected") ∧
    pipelineIsEnabled none u = false := by
  unfold derive_vex_state pipelineIsEnabled
  rcases u with _ | ⟨x, r⟩ <;> rcases b <;> simp

/-- Witness for C4 at a concrete pair. -/
theorem claim_C4_verdict_table_w :
    derive_vex_state false ["CONFIG_A"] =
      ("not_affected", some "code_not_reachable",
        "Required symbols present in source but not enabled in provided .config: " ++
          String.intercalate ", " ["CONFIG_A"]) :=
  (claim_C4_verdict_table false ["CONFIG_A"]).2.2.1 (by decide) rfl

/-! ## Claim C9 — `is_enabled` semantics and the `enabled_set` round trip -/

theorem lookupAssoc_mem :
    ∀ (l : List (String × String)) (k v : String),
      lookupAssoc l k = some v → (k, v) ∈ l
  | [], _, _, h => by simp [lookupAssoc] at h
  | (k', v') :: r, k, v, h => by
    unfold lookupAssoc at h
    by_cases hk : k' = k
    · rw [if_pos hk] at h
      injection h with h'
      subst hk h'
      exact List.mem_cons_self _ _
    · rw [if_neg hk] at h
      exact List.mem_cons_of_mem _ (lookupAssoc_mem r k v h)

theorem mem_enabled_of_lookup (l : List (String × String)) (sym v : String)
    (h : lookupAssoc l sym = some v) (hv : v = "y" ∨ v = "m") :
    sym ∈ (DotConfig.mk l).enabled_set true := by
  unfold DotConfig.enabled_set
  refine List.mem_map.mpr ⟨(sym, v), List.mem_filter.mpr
    ⟨lookupAssoc_mem l sym v h, ?_⟩, rfl⟩
  rcases hv with h1 | h1 <;> subst h1 <;> simp

/-- **C9.** `is_enabled(sym, im)` is true iff the stored value is `y`, or is
`m` with `im = true`; consequently `is_enabled(sym, true)` implies
membership in `enabled_set(true)`. -/
theorem claim_C9_is_enabled_iff (c : DotConfig) (sym : String) (im : Bool) :
    (c.is_enabled sym im = true ↔
      lookupAssoc c.values sym = some "y" ∨
        (lookupAssoc c.values sym = some "m" ∧ im = true)) ∧
    (c.is_enabled sym true = true → sym ∈ c.enabled_set true) := by
  have hiff : ∀ im' : Bool,
      c.is_enabled sym im' = true ↔
        lookupAssoc c.values sym = some "y" ∨
          (lookupAssoc c.values sym = some "m" ∧ im' = true) := by
    intro im'
    unfold DotConfig.is_enabled
    cases h : lookupAssoc c.values sym with
    | none => simp
    | some v =>
      change (if v = "y" then true else if v = "m" then im' else false) = true ↔ _
      by_cases hy : v = "y"
      · subst hy
        rw [if_pos rfl]
        simp
      · rw [if_neg hy]
        by_cases hm : v = "m"
        · subst hm
          rw [if_pos rfl]
          constructor
          · intro him
            exact Or.inr ⟨rfl, him⟩
          · rintro (hbad | ⟨-, him⟩)
            · exact absurd (Option.some.inj hbad) (by decide)
            · exact him
        · rw [if_neg hm]
          constructor
          · intro hf
            cases hf
          · rintro (hbad | ⟨hbad, -⟩)
            · exact absurd (Option.some.inj hbad) hy
            · exact absurd (Option.some.inj hbad) hm
  refine ⟨hiff im, fun h => ?_⟩
  rcases (hiff true).mp h with h1 | h1
  · exact mem_enabled_of_lookup c.values sym "y" h1 (Or.inl rfl)
  · exact mem_enabled_of_lookup c.values sym "m" h1.1 (Or.inr rfl)

/-- Witness for C9: a module symbol with `include_modules = true`. -/
theorem claim_C9_is_enabled_iff_w :
    (DotConfig.mk [("CONFIG_M", "m")]).is_enabled "CONFIG_M" true = true ∧
    "CONFIG_M" ∈ (DotConfig.mk [("CONFIG_M", "m")]).enabled_set true := by
  refine ⟨by decide, ?_⟩
  exact (claim_C9_is_enabled_iff ⟨[("CONFIG_M", "m")]⟩ "CONFIG_M" true).2
    (by decide)

/-! ## Claim C5 — error contract of `trace_kernel_config` -/

/-- **C5.** A missing file yields `error = Some("File not found …")` with
empty collections; an existing file yields `error = None`; and every result
with `error = Some _` has empty `objects`, `symbols`, and `edges`. -/
theorem claim_C5_error_contract (fs : Fs) (root : FPath) (relFile : String) :
    (fs.pathExists (srcPathOf root relFile) = false →
      trace_kernel_config fs root relFile =
        { file := relFile, objects := [], symbols := [], edges := [],
          error := some ("File not found in source tree: " ++
            pathStr (srcPathOf root relFile)) }) ∧
    (fs.pathExists (srcPathOf root relFile) = true →
      (trace_kernel_config fs root relFile).error = none) ∧
    (∀ m, (trace_kernel_config fs root relFile).error = some m →
      (trace_kernel_config fs root relFile).objects = [] ∧
      (trace_kernel_config fs root relFile).symbols = [] ∧
      (trace_kernel_config fs root relFile).edges = []) := by
  refine ⟨fun hex => trace_eq_of_missing fs root relFile hex, ?_, ?_⟩
  · intro hex
    rw [trace_eq_of_found fs root relFile hex]
  · intro m hm
    by_cases hex : fs.pathExists (srcPathOf root relFile)
    · rw [trace_eq_of_found fs root relFile hex] at hm
      exact absurd hm (by simp)
    · rw [trace_eq_of_missing fs root relFile (by simpa using hex)]
      exact ⟨rfl, rfl, rfl⟩

/-- Witness for C5: one missing and one existing file. -/
theorem claim_C5_error_contract_w :
    trace_kernel_config ⟨[(["r", "a.c"], [])]⟩ ["r"] "nope/x.c" =
      { file := "nope/x.c", objects := [], symbols := [], edges := [],
        error := some ("File not found in source tree: " ++
          pathStr (srcPathOf ["r"] "nope/x.c")) } ∧
    (trace_kernel_config ⟨[(["r", "a.c"], [])]⟩ ["r"] "a.c").error = none := by
  exact ⟨(claim_C5_error_contract ⟨[(["r", "a.c"], [])]⟩ ["r"] "nope/x.c").1
      (by decide),
    (claim_C5_error_contract ⟨[(["r", "a.c"], [])]⟩ ["r"] "a.c").2.1
      (by decide)⟩

/-! ## Claim C3 — the seeded object name -/

/-- A tree whose traced file name contains `.c` twice. -/
def fsDotCC : Fs := ⟨[(["r", "d", "a.c.c"], [])]⟩

/-- **C3 counterexample.** The claim says the seeded object is the basename
with only the trailing `.c` replaced by `.o` (here `a.c.o`).  The code uses
`String::replace(".c", ".o")`, which replaces every occurrence, producing
`a.o.o`; the suffix-derived object is absent. -/
theorem claim_C3_suffix_cex :
    (trace_kernel_config fsDotCC ["r"] "d/a.c.c").error = none ∧
    specSuffixObject "a.c.c" = "a.c.o" ∧
    "a.c.o" ∉ (trace_kernel_config fsDotCC ["r"] "d/a.c.c").objects ∧
    (trace_kernel_config fsDotCC ["r"] "d/a.c.c").objects = ["a.o.o"] := by
  decide

/-- **C3 (amended).** For every trace with `error = None`, the objects set
contains the object obtained from the basename by replacing every
occurrence of `.c` with `.o` (Rust `String::replace` semantics). -/
theorem claim_C3_object_in_result (fs : Fs) (root : FPath) (relFile : String)
    (h : (trace_kernel_config fs root relFile).error = none) :
    objNameOf root relFile ∈ (trace_kernel_config fs root relFile).objects := by
  by_cases hex : fs.pathExists (srcPathOf root relFile)
  · rw [trace_eq_of_found fs root relFile hex]
    have h0 : objNameOf root relFile ∈ (traceInitState root relFile).objects := by
      rw [traceInitState_objects]
      exact List.mem_singleton.mpr rfl
    exact (traceLoop_ext fs (fileDirStrOf root relFile) (boundFuel fs)
      (traceInitState root relFile)).2.1 h0
  · rw [trace_eq_of_missing fs root relFile (by simpa using hex)] at h
    exact absurd h (by simp)

/-- Witness for the amended C3. -/
theorem claim_C3_object_in_result_w :
    objNameOf ["r"] "d/a.c.c" ∈
      (trace_kernel_config fsDotCC ["r"] "d/a.c.c").objects :=
  claim_C3_object_in_result fsDotCC ["r"] "d/a.c.c" (by decide)

/-! ## Claim C7 machinery: edge-endpoint invariants -/

theorem lpre_append : ∀ (a b : List Char), lpre a (a ++ b) = true
  | [], _ => rfl
  | c :: r, b => by simp [lpre, lpre_append r b]

theorem strPre_append (a b : String) : strPre a (a ++ b) = true := by
  unfold strPre
  rw [String.data_append]
  exact lpre_append a.data b.data

/-- Queue-item invariant: the source target is a discovered object, and the
scanned target is a discovered object or an initial seed. -/
def QOk (seedLs : List String) (st : TState) (it : QItem) : Prop :=
  it.srcT ∈ st.objects ∧ (it.target ∈ st.objects ∨ keyOf it ∈ seedLs)

/-- Edge invariant: the destination names a discovered symbol or object, and
the source names a discovered object or is the label of an initial seed. -/
def EOk (seedLs : List String) (st : TState) (e : TraceEdge) : Prop :=
  ((∃ t ∈ st.objects, ∃ d : String, e.src = t ++ "@" ++ d) ∨ e.src ∈ seedLs) ∧
    ((∃ s ∈ st.symbols, e.dst = "CONFIG:" ++ s) ∨
      (∃ c ∈ st.objects, ∃ d : String, e.dst = c ++ "@" ++ d))

theorem QOk_mono {L : List String} {st st' : TState} {it : QItem}
    (h : QOk L st it) (hext : StExt st st') : QOk L st' it :=
  ⟨hext.2.1 h.1, h.2.imp (fun ht => hext.2.1 ht) id⟩

theorem EOk_mono {L : List String} {st st' : TState} {e : TraceEdge}
    (h : EOk L st e) (hext : StExt st st') : EOk L st' e := by
  refine ⟨h.1.imp ?_ id, h.2.imp ?_ ?_⟩
  · rintro ⟨t, ht, d, hd⟩
    exact ⟨t, hext.2.1 ht, d, hd⟩
  · rintro ⟨sm, hs, hd⟩
    exact ⟨sm, hext.1 hs, hd⟩
  · rintro ⟨c, hc, d, hd⟩
    exact ⟨c, hext.2.1 hc, d, hd⟩

theorem symStep_queue (a b : String) (s : TState) (c : String) :
    (symStep a b s c).queue = s.queue := rfl

theorem symStep_objects (a b : String) (s : TState) (c : String) :
    (symStep a b s c).objects = s.objects := rfl

/-- The symbol fold leaves objects and the queue untouched. -/
theorem symFold_objects (a b : String) :
    ∀ (l : List String) (s : TState),
      (l.foldl (symStep a b) s).objects = s.objects
  | [], _ => rfl
  | x :: r, s => symFold_objects a b r (symStep a b s x)

theorem symFold_queue (a b : String) :
    ∀ (l : List String) (s : TState),
      (l.foldl (symStep a b) s).queue = s.queue
  | [], _ => rfl
  | x :: r, s => symFold_queue a b r (symStep a b s x)

/-- One symbol step preserves the edge invariant, given that the edge label
source object is discovered. -/
theorem symStep_eok {L : List String} (srcT fd via : String) (s : TState)
    (cfg : String) (hsrc : srcT ∈ s.objects)
    (hall : ∀ e ∈ s.edges, EOk L s e) :
    ∀ e ∈ (symStep (srcT ++ "@" ++ fd) via s cfg).edges,
      EOk L (symStep (srcT ++ "@" ++ fd) via s cfg) e := by
  intro e he
  rcases List.mem_append.mp he with hold | hnew
  · exact EOk_mono (hall e hold) (symStep_ext _ _ s cfg)
  · rcases List.mem_singleton.mp hnew with rfl
    refine ⟨Or.inl ⟨srcT, hsrc, fd, rfl⟩, Or.inl ⟨cfg, ?_, rfl⟩⟩
    exact mem_insertIfAbsent_self cfg s.symbols

/-- The symbol fold preserves the edge invariant. -/
theorem symFold_eok {L : List String} (srcT fd via : String) :
    ∀ (cfgs : List String) (s : TState), srcT ∈ s.objects →
      (∀ e ∈ s.edges, EOk L s e) →
      ∀ e ∈ (cfgs.foldl (symStep (srcT ++ "@" ++ fd) via) s).edges,
        EOk L (cfgs.foldl (symStep (srcT ++ "@" ++ fd) via) s) e
  | [], _, _, hall => hall
  | x :: r, s, hsrc, hall =>
    symFold_eok srcT fd via r (symStep (srcT ++ "@" ++ fd) via s x)
      (by rw [symStep_objects]; exact hsrc)
      (symStep_eok srcT fd via s x hsrc hall)

/-- One container step preserves both invariants; the new edge's source is
the processed tuple's key. -/
theorem conStep_inv {L : List String} (it : QItem) (viaC : String)
    (s : TState) (c : String)
    (htgt : it.target ∈ s.objects ∨ keyOf it ∈ L)
    (hsrc : it.srcT ∈ s.objects)
    (hall : ∀ e ∈ s.edges, EOk L s e)
    (hq : ∀ q ∈ s.queue, QOk L s q) :
    (∀ e ∈ (conStep it.target it.dir viaC it.srcT s c).edges,
        EOk L (conStep it.target it.dir viaC it.srcT s c) e) ∧
      (∀ q ∈ (conStep it.target it.dir viaC it.srcT s c).queue,
        QOk L (conStep it.target it.dir viaC it.srcT s c) q) := by
  unfold conStep
  split
  · exact ⟨hall, hq⟩
  · constructor
    · intro e he
      rcases List.mem_append.mp he with hold | hnew
      · refine EOk_mono (hall e hold) ?_
        exact ⟨fun _ h => h, fun _ h => List.mem_append_left _ h,
          fun _ h => List.mem_append_left _ h, fun _ h => h⟩
      · rcases List.mem_singleton.mp hnew with rfl
        constructor
        · rcases htgt with ht | ht
          · exact Or.inl ⟨it.target, List.mem_append_left _ ht, pathStr it.dir, rfl⟩
          · exact Or.inr ht
        · exact Or.inr ⟨c, List.mem_append_right _ (List.mem_singleton.mpr rfl),
            pathStr it.dir, rfl⟩
    · intro q hqm
      rcases List.mem_append.mp hqm with hold | hnew
      · refine QOk_mono (hq q hold) ?_
        exact ⟨fun _ h => h, fun _ h => List.mem_append_left _ h,
          fun _ h => List.mem_append_left _ h, fun _ h => h⟩
      · rcases List.mem_singleton.mp hnew with rfl
        exact ⟨List.mem_append_left _ hsrc,
          Or.inl (List.mem_append_right _ (List.mem_singleton.mpr rfl))⟩

/-- The container fold preserves both invariants. -/
theorem conFold_inv {L : List String} (it : QItem) (viaC : String) :
    ∀ (cs : List String) (s : TState),
      (it.target ∈ s.objects ∨ keyOf it ∈ L) → it.srcT ∈ s.objects →
      (∀ e ∈ s.edges, EOk L s e) → (∀ q ∈ s.queue, QOk L s q) →
      (∀ e ∈ (cs.foldl (conStep it.target it.dir viaC it.srcT) s).edges,
          EOk L (cs.foldl (conStep it.target it.dir viaC it.srcT) s) e) ∧
        (∀ q ∈ (cs.foldl (conStep it.target it.dir viaC it.srcT) s).queue,
          QOk L (cs.foldl (conStep it.target it.dir viaC it.srcT) s) q)
  | [], _, _, _, hall, hq => ⟨hall, hq⟩
  | x :: r, s, htgt, hsrc, hall, hq => by
    have hstep := conStep_inv it viaC s x htgt hsrc hall hq
    have hext := conStep_ext it.target it.dir viaC it.srcT s x
    exact conFold_inv it viaC r (conStep it.target it.dir viaC it.srcT s x)
      (htgt.imp (fun h => hext.2.1 h) id) (hext.2.1 hsrc) hstep.1 hstep.2

/-- Processing one tuple preserves both invariants. -/
theorem processItem_inv {L : List String} (fs : Fs) (fd : String)
    (st : TState) (it : QItem)
    (hall : ∀ e ∈ st.edges, EOk L st e)
    (hq : ∀ q ∈ st.queue, QOk L st q)
    (hit : QOk L st it) :
    (∀ e ∈ (processItem fs fd st it).edges,
        EOk L (processItem fs fd st it) e) ∧
      (∀ q ∈ (processItem fs fd st it).queue,
        QOk L (processItem fs fd st it) q) := by
  unfold processItem
  split
  · exact ⟨hall, hq⟩
  · have hv : StExt st { st with visited := st.visited ++ [keyOf it] } :=
      visitedStep_ext st (keyOf it)
    split
    · exact ⟨fun e he => EOk_mono (hall e he) hv, fun q hqm => QOk_mono (hq q hqm) hv⟩
    · set st1 := { st with visited := st.visited ++ [keyOf it] } with hst1
      have hall1 : ∀ e ∈ st1.edges, EOk L st1 e :=
        fun e he => EOk_mono (hall e he) hv
      have hq1 : ∀ q ∈ st1.queue, QOk L st1 q :=
        fun q hqm => QOk_mono (hq q hqm) hv
      have hit1 : QOk L st1 it := QOk_mono hit hv
      set viaSym :=
        if it.hint.isSome then "parent directory gate" else "makefile rule"
      set scan := scan_makefile_for_targets fs _ it.target it.hint
      set st2 := scan.configs_for_target.foldl
        (symStep (it.srcT ++ "@" ++ fd) viaSym) st1 with hst2
      have hall2 : ∀ e ∈ st2.edges, EOk L st2 e :=
        symFold_eok it.srcT fd viaSym scan.configs_for_target st1 hit1.1 hall1
      have hext12 : StExt st1 st2 :=
        foldl_ext _ (fun s x => symStep_ext _ _ s x) _ _
      have hq2 : ∀ q ∈ st2.queue, QOk L st2 q := by
        intro q hqm
        rw [hst2, symFold_queue] at hqm
        exact QOk_mono (hq1 q hqm) hext12
      have hit2 : QOk L st2 it := QOk_mono hit1 hext12
      exact conFold_inv it _ scan.containers st2 hit2.2 hit2.1 hall2 hq2

/-- A batch fold preserves both invariants, given that every batch item
satisfies the queue invariant at the starting state. -/
theorem batchFold_inv {L : List String} (fs : Fs) (fd : String) :
    ∀ (bs : List QItem) (st : TState),
      (∀ e ∈ st.edges, EOk L st e) → (∀ q ∈ st.queue, QOk L st q) →
      (∀ b ∈ bs, QOk L st b) →
      (∀ e ∈ (bs.foldl (processItem fs fd) st).edges,
          EOk L (bs.foldl (processItem fs fd) st) e) ∧
        (∀ q ∈ (bs.foldl (processItem fs fd) st).queue,
          QOk L (bs.foldl (processItem fs fd) st) q)
  | [], _, hall, hq, _ => ⟨hall, hq⟩
  | b :: r, st, hall, hq, hbs => by
    have hstep := processItem_inv fs fd st b hall hq
      (hbs b (List.mem_cons_self _ _))
    have hext := processItem_ext fs fd st b
    exact batchFold_inv fs fd r (processItem fs fd st b) hstep.1 hstep.2
      (fun x hx => QOk_mono (hbs x (List.mem_cons_of_mem _ hx)) hext)

/-- One outer iteration preserves both invariants. -/
theorem processBatch_inv {L : List String} (fs : Fs) (fd : String)
    (st : TState)
    (hall : ∀ e ∈ st.edges, EOk L st e)
    (hq : ∀ q ∈ st.queue, QOk L st q) :
    (∀ e ∈ (processBatch fs fd st).edges, EOk L (processBatch fs fd st) e) ∧
      (∀ q ∈ (processBatch fs fd st).queue,
        QOk L (processBatch fs fd st) q) := by
  unfold processBatch
  exact batchFold_inv fs fd st.queue { st with queue := [] }
    (fun e he => hall e he) (by intro q hqm; cases hqm)
    (fun b hb => hq b hb)

/-- The loop preserves both invariants. -/
theorem traceLoop_inv {L : List String} (fs : Fs) (fd : String) :
    ∀ (f : Nat) (st : TState),
      (∀ e ∈ st.edges, EOk L st e) → (∀ q ∈ st.queue, QOk L st q) →
      (∀ e ∈ (traceLoop fs fd f st).edges, EOk L (traceLoop fs fd f st) e)
  | 0, _, hall, _ => hall
  | f + 1, st, hall, hq => by
    rw [traceLoop]
    split
    · exact hall
    · have hb := processBatch_inv fs fd st hall hq
      exact traceLoop_inv fs fd f (processBatch fs fd st) hb.1 hb.2

/-- Every initial seed carries the seed object as its source target. -/
theorem parentSeedsGo_srcT (root srcPath : FPath) (objName : String) :
    ∀ (n : Nat) (p : FPath) (it : QItem),
      it ∈ parentSeedsGo root srcPath objName n p → it.srcT = objName
  | 0, _, _, h => by cases h
  | n + 1, p, it, h => by
    unfold parentSeedsGo at h
    split at h
    · cases h
    · split at h
      · cases h
      · rcases List.mem_cons.mp h with rfl | hmem
        · rfl
        · exact parentSeedsGo_srcT root srcPath objName n _ it hmem

theorem initQueue_srcT (root srcPath : FPath) (objName : String) :
    ∀ it ∈ initQueue root srcPath objName, it.srcT = objName := by
  intro it h
  unfold initQueue at h
  rcases List.mem_cons.mp h with rfl | hmem
  · rfl
  · rcases List.mem_append.mp hmem with hl | hr
    · split at hl
      · split at hl
        · rcases List.mem_singleton.mp hl with rfl
          rfl
        · cases hl
      · cases hl
    · exact parentSeedsGo_srcT root srcPath objName _ _ it hr

/-- **C7 (amended).**  In every trace result, every edge's `dst` label names
a discovered object (`<obj>@<dir>`) or symbol (`CONFIG:<sym>`), and every
edge's `src` label names a discovered object or is the `t@<dir>` label of
one of the trace's initial seed targets (the seed object, its
extension-derived variant, or a parent-relative target). -/
theorem claim_C7_edge_endpoints (fs : Fs) (root : FPath) (relFile : String)
    (e : TraceEdge) (he : e ∈ (trace_kernel_config fs root relFile).edges) :
    labelOkB (trace_kernel_config fs root relFile) e.dst = true ∧
      (labelOkB (trace_kernel_config fs root relFile) e.src = true ∨
        e.src ∈ seedLabels root relFile) := by
  by_cases hex : fs.pathExists (srcPathOf root relFile)
  · rw [trace_eq_of_found fs root relFile hex] at he ⊢
    have hinv := traceLoop_inv (L := seedLabels root relFile) fs
      (fileDirStrOf root relFile) (boundFuel fs) (traceInitState root relFile)
      (by intro e' he'; cases he')
      (by
        intro q hq
        refine ⟨?_, Or.inr (List.mem_map_of_mem keyOf hq)⟩
        rw [traceInitState_objects]
        rw [initQueue_srcT root (srcPathOf root relFile)
          (objNameOf root relFile) q hq]
        exact List.mem_singleton.mpr rfl)
    have heok := hinv e he
    constructor
    · rcases heok.2 with ⟨sm, hs, hd⟩ | ⟨c, hc, d, hd⟩
      · refine Bool.or_eq_true_iff.mpr (Or.inr ?_)
        exact List.any_eq_true.mpr ⟨sm, hs, by rw [hd]; exact decide_eq_true rfl⟩
      · refine Bool.or_eq_true_iff.mpr (Or.inl ?_)
        refine List.any_eq_true.mpr ⟨c, hc, ?_⟩
        rw [hd]
        have : c ++ "@" ++ d = (c ++ "@") ++ d := by rw [String.append_assoc]
        rw [this]
        exact strPre_append (c ++ "@") d
    · rcases heok.1 with ⟨t, ht, d, hd⟩ | hseed
      · refine Or.inl (Bool.or_eq_true_iff.mpr (Or.inl ?_))
        refine List.any_eq_true.mpr ⟨t, ht, ?_⟩
        rw [hd]
        have : t ++ "@" ++ d = (t ++ "@") ++ d := by rw [String.append_assoc]
        rw [this]
        exact strPre_append (t ++ "@") d
      · exact Or.inr hseed
  · rw [trace_eq_of_missing fs root relFile (by simpa using hex)] at he
    cases he

/-- A tree whose parent Makefile pulls the parent-relative target
`sub/m.o` into a composite object. -/
def fsParentRel : Fs :=
  ⟨[(["r", "drivers", "Makefile"], ["foo-objs := sub/m.o"]),
    (["r", "drivers", "sub", "m.c"], [])]⟩

/-- **C7 counterexample.**  The claim (spec invariant 3) says every edge
endpoint is `t@<dir>` with `t ∈ objects` or `CONFIG:<sym>` with
`sym ∈ symbols`.  Scanning the ancestor `drivers/Makefile` with the
parent-relative target `sub/m.o` emits a container edge whose `src` is
`sub/m.o@r/drivers`, and `sub/m.o` is not an element of `objects`
(`{m.o, foo.o}`) nor of `CONFIG:` form. -/
theorem claim_C7_cex :
    (trace_kernel_config fsParentRel ["r"] "drivers/sub/m.c").edges =
      [⟨"sub/m.o@r/drivers", "foo.o@r/drivers",
        "parent container includes target"⟩] ∧
    (trace_kernel_config fsParentRel ["r"] "drivers/sub/m.c").objects =
      ["m.o", "foo.o"] ∧
    labelOkB (trace_kernel_config fsParentRel ["r"] "drivers/sub/m.c")
      "sub/m.o@r/drivers" = false := by
  decide

/-- Witness for the amended C7 at the counterexample tree's edge. -/
theorem claim_C7_edge_endpoints_w :
    labelOkB (trace_kernel_config fsParentRel ["r"] "drivers/sub/m.c")
      "foo.o@r/drivers" = true ∧
      (labelOkB (trace_kernel_config fsParentRel ["r"] "drivers/sub/m.c")
        "sub/m.o@r/drivers" = true ∨
        "sub/m.o@r/drivers" ∈ seedLabels ["r"] "drivers/sub/m.c") :=
  claim_C7_edge_endpoints fsParentRel ["r"] "drivers/sub/m.c"
    ⟨"sub/m.o@r/drivers", "foo.o@r/drivers",
      "parent container includes target"⟩ (by decide)

/-! ## Claim C8 machinery: a finite universe of container names

Every container a scan can report is `<sub>.o` for a contiguous substring
`<sub>` of some logical Makefile line, so the set of containers ever
enqueued is drawn from a finite universe determined by the file system. -/

/-- All prefixes of a character list. -/
def initsC : List Char → List (List Char)
  | [] => [[]]
  | c :: r => [] :: (initsC r).map (c :: ·)

/-- All contiguous substrings of a character list. -/
def substrsC : List Char → List (List Char)
  | [] => [[]]
  | c :: r => initsC (c :: r) ++ substrsC r

def catLists {α : Type} : List (List α) → List α
  | [] => []
  | l :: r => l ++ catLists r

/-- Candidate container names of one logical line. -/
def lineContainers (l : List Char) : List String :=
  (substrsC l).map (fun sub => String.mk sub ++ ".o")

/-- Candidate container names of the whole file system. -/
def universeList (fs : Fs) : List String :=
  catLists (fs.files.map (fun e => catLists ((processRaw e.2).map lineContainers)))

/-- Number of universe containers not yet discovered: the BFS measure. -/
def muObj (fs : Fs) (st : TState) : Nat :=
  ((universeList fs).filter (fun c => decide (c ∉ st.objects))).length

theorem take_mem_initsC : ∀ (l : List Char) (k : Nat), l.take k ∈ initsC l
  | [], k => by cases k <;> exact List.mem_singleton.mpr rfl
  | c :: r, 0 => List.mem_cons_self _ _
  | c :: r, k + 1 => by
    show c :: r.take k ∈ [] :: (initsC r).map (c :: ·)
    exact List.mem_cons_of_mem _ (List.mem_map_of_mem _ (take_mem_initsC r k))

theorem takeDrop_mem_substrsC :
    ∀ (l : List Char) (i k : Nat), (l.drop i).take k ∈ substrsC l
  | [], i, k => by
    rw [List.drop_nil, List.take_nil]
    exact List.mem_singleton.mpr rfl
  | c :: r, 0, k => by
    rw [List.drop_zero]
    exact List.mem_append_left _ (take_mem_initsC (c :: r) k)
  | c :: r, i + 1, k => by
    show ((c :: r).drop (i + 1)).take k ∈ initsC (c :: r) ++ substrsC r
    rw [List.drop_succ_cons]
    exact List.mem_append_right _ (takeDrop_mem_substrsC r i k)

theorem length_initsC : ∀ l : List Char, (initsC l).length = l.length + 1
  | [] => rfl
  | c :: r => by
    show ([] :: (initsC r).map (c :: ·)).length = (c :: r).length + 1
    simp [length_initsC r]

theorem length_substrsC_le : ∀ l : List Char, (substrsC l).length ≤ lineBound l
  | [] => by simp [substrsC, lineBound]
  | c :: r => by
    show (initsC (c :: r) ++ substrsC r).length ≤ lineBound (c :: r)
    have h1 := length_substrsC_le r
    have h2 := length_initsC (c :: r)
    rw [List.length_append, h2]
    unfold lineBound at h1 ⊢
    simp only [List.length_cons]
    nlinarith [h1]

theorem length_lineContainers_le (l : List Char) :
    (lineContainers l).length ≤ lineBound l := by
  unfold lineContainers
  rw [List.length_map]
  exact length_substrsC_le l

theorem length_catLists {α : Type} :
    ∀ ls : List (List α), (catLists ls).length = (ls.map List.length).sum
  | [] => rfl
  | l :: r => by
    show (l ++ catLists r).length = (List.length l :: (r.map List.length)).sum
    rw [List.length_append, List.sum_cons, length_catLists r]

theorem mem_catLists {α : Type} (x : α) :
    ∀ (ls : List (List α)) (l : List α), l ∈ ls → x ∈ l → x ∈ catLists ls
  | [], _, h, _ => absurd h (List.not_mem_nil _)
  | a :: r, l, h, hx => by
    rcases List.mem_cons.mp h with rfl | hmem
    · exact List.mem_append_left _ hx
    · exact List.mem_append_right _ (mem_catLists x r l hmem hx)

/-- Every container candidate of a line of an existing file is in the
universe. -/
theorem mem_universe_of_line (fs : Fs) (p : FPath) (line : List Char)
    (hline : line ∈ read_makefile_lines fs p) (c : String)
    (hc : c ∈ lineContainers line) : c ∈ universeList fs := by
  unfold read_makefile_lines at hline
  split at hline
  · unfold Fs.rawLines at hline
    rcases hfind : fs.files.find? (fun e => e.1 = p) with _ | e
    · rw [hfind] at hline
      simp [processRaw, foldContinuations, normalizeLines] at hline
    · rw [hfind] at hline
      have hemem : e ∈ fs.files := List.mem_of_find?_eq_some hfind
      unfold universeList
      refine mem_catLists c _ (catLists ((processRaw e.2).map lineContainers))
        (List.mem_map_of_mem _ hemem) ?_
      exact mem_catLists c _ (lineContainers line)
        (List.mem_map_of_mem _ hline) hc
  · cases hline

/-- Universe size against the fuel bound. -/
theorem universe_length_le (fs : Fs) :
    (universeList fs).length + 2 ≤ boundFuel fs := by
  unfold universeList boundFuel
  have h : (catLists (fs.files.map
      (fun e => catLists ((processRaw e.2).map lineContainers)))).length ≤
      (fs.files.map (fun e => ((processRaw e.2).map lineBound).sum)).sum := by
    rw [length_catLists, List.map_map]
    refine List.sum_le_sum ?_
    intro e _
    show (catLists ((processRaw e.2).map lineContainers)).length ≤
      ((processRaw e.2).map lineBound).sum
    rw [length_catLists, List.map_map]
    refine List.sum_le_sum ?_
    intro l _
    exact length_lineContainers_le l
  omega

theorem length_filter_le_of_imp {α : Type} (p q : α → Bool)
    (h : ∀ x, q x = true → p x = true) :
    ∀ l : List α, (l.filter q).length ≤ (l.filter p).length
  | [] => Nat.le.refl
  | a :: r => by
    rw [List.filter_cons, List.filter_cons]
    have ih := length_filter_le_of_imp p q h r
    by_cases hq : q a = true
    · rw [if_pos hq, if_pos (h a hq)]
      simpa using ih
    · rw [if_neg hq]
      split
      · exact ih.trans (by simp)
      · exact ih

theorem length_filter_lt {α : Type} (p q : α → Bool)
    (himp : ∀ x, q x = true → p x = true) (a : α) :
    ∀ l : List α, a ∈ l → p a = true → q a = false →
      (l.filter q).length < (l.filter p).length
  | [], h, _, _ => absurd h (List.not_mem_nil _)
  | b :: r, h, hpa, hqa => by
    rw [List.filter_cons, List.filter_cons]
    rcases List.mem_cons.mp h with rfl | hmem
    · rw [if_neg (by simp [hqa]), if_pos hpa]
      have := length_filter_le_of_imp p q himp r
      simpa using Nat.lt_succ_of_le this
    · have ih := length_filter_lt p q himp a r hmem hpa hqa
      by_cases hqb : q b = true
      · rw [if_pos hqb, if_pos (himp b hqb)]
        simpa using ih
      · rw [if_neg hqb]
        split
        · exact ih.trans (by simp)
        · exact ih

/-! Capture shapes: every container capture is a contiguous substring. -/

theorem r2AttemptAt_shape (s t : List Char) (k : Nat) (g : List Char)
    (cfg? : Option (List Char)) (h : r2AttemptAt s t k = some (g, cfg?)) :
    g = s.take k := by
  unfold r2AttemptAt at h
  split at h
  · split at h
    · split at h
      · split at h
        · injection h with h'
          injection h' with h1 h2
          exact h1.symm
        · cases h
      · cases h
    · cases h
  · cases h

theorem r2TryK_shape :
    ∀ (K : Nat) (s t g : List Char) (cfg? : Option (List Char)),
      r2TryK s t K = some (g, cfg?) → ∃ k, g = s.take k
  | 0, _, _, _, _, h => by cases h
  | K + 1, s, t, g, cfg?, h => by
    rw [r2TryK] at h
    rcases hA : r2AttemptAt s t (K + 1) with _ | res
    · rw [hA] at h
      exact r2TryK_shape K s t g cfg? h
    · rw [hA] at h
      injection h with h'
      exact ⟨K + 1, r2AttemptAt_shape s t (K + 1) g cfg? (by rw [hA, h'])⟩

theorem r2FindFrom_shape :
    ∀ (s : List Char) (prev : Option Char) (t g : List Char)
      (cfg? : Option (List Char)),
      r2FindFrom prev s t = some (g, cfg?) → ∃ i k, g = (s.drop i).take k
  | [], _, _, _, _, h => by cases h
  | c :: rest, prev, t, g, cfg?, h => by
    rw [r2FindFrom] at h
    split at h
    · next res heq =>
      injection h with h'
      subst h'
      split at heq
      · rcases r2TryK_shape _ _ _ _ _ heq with ⟨k, hk⟩
        exact ⟨0, k, by simpa using hk⟩
      · cases heq
    · next heq =>
      rcases r2FindFrom_shape rest (some c) t g cfg? h with ⟨i, k, hk⟩
      exact ⟨i + 1, k, by simpa using hk⟩

theorem r3AttemptAt_shape (s t : List Char) (k : Nat) (g : List Char)
    (h : r3AttemptAt s t k = some g) : g = s.take k := by
  unfold r3AttemptAt at h
  split at h
  · split at h
    · split at h
      · injection h with h'
        exact h'.symm
      · cases h
    · cases h
  · cases h

theorem r3TryK_shape :
    ∀ (K : Nat) (s t g : List Char), r3TryK s t K = some g → ∃ k, g = s.take k
  | 0, _, _, _, h => by cases h
  | K + 1, s, t, g, h => by
    rw [r3TryK] at h
    rcases hA : r3AttemptAt s t (K + 1) with _ | res
    · rw [hA] at h
      exact r3TryK_shape K s t g h
    · rw [hA] at h
      injection h with h'
      subst h'
      exact ⟨K + 1, r3AttemptAt_shape s t (K + 1) res (by rw [hA])⟩

theorem r3FindFrom_shape :
    ∀ (s : List Char) (prev : Option Char) (t g : List Char),
      r3FindFrom prev s t = some g → ∃ i k, g = (s.drop i).take k
  | [], _, _, _, h => by cases h
  | c :: rest, prev, t, g, h => by
    rw [r3FindFrom] at h
    split at h
    · next res heq =>
      injection h with h'
      subst h'
      split at heq
      · rcases r3TryK_shape _ _ _ _ heq with ⟨k, hk⟩
        exact ⟨0, k, by simpa using hk⟩
      · cases heq
    · next heq =>
      rcases r3FindFrom_shape rest (some c) t g h with ⟨i, k, hk⟩
      exact ⟨i + 1, k, by simpa using hk⟩

theorem r4AttemptAt_shape (s t : List Char) (k : Nat) (g cfg : List Char)
    (h : r4AttemptAt s t k = some (g, cfg)) : g = s.take k := by
  unfold r4AttemptAt at h
  split at h
  · split at h
    · split at h
      · split at h
        · injection h with h'
          injection h' with h1 h2
          exact h1.symm
        · cases h
      · cases h
    · cases h
  · cases h

theorem r4TryK_shape :
    ∀ (K : Nat) (s t g cfg : List Char),
      r4TryK s t K = some (g, cfg) → ∃ k, g = s.take k
  | 0, _, _, _, _, h => by cases h
  | K + 1, s, t, g, cfg, h => by
    rw [r4TryK] at h
    rcases hA : r4AttemptAt s t (K + 1) with _ | res
    · rw [hA] at h
      exact r4TryK_shape K s t g cfg h
    · rw [hA] at h
      injection h with h'
      exact ⟨K + 1, r4AttemptAt_shape s t (K + 1) g cfg (by rw [hA, h'])⟩

theorem r4FindFrom_shape :
    ∀ (s : List Char) (prev : Option Char) (t g cfg : List Char),
      r4FindFrom prev s t = some (g, cfg) → ∃ i k, g = (s.drop i).take k
  | [], _, _, _, _, h => by cases h
  | c :: rest, prev, t, g, cfg, h => by
    rw [r4FindFrom] at h
    split at h
    · next res heq =>
      injection h with h'
      subst h'
      split at heq
      · rcases r4TryK_shape _ _ _ _ _ heq with ⟨k, hk⟩
        exact ⟨0, k, by simpa using hk⟩
      · cases heq
    · next heq =>
      rcases r4FindFrom_shape rest (some c) t g cfg h with ⟨i, k, hk⟩
      exact ⟨i + 1, k, by simpa using hk⟩

/-- Elimination for `insertIfAbsent` membership. -/
theorem mem_insertIfAbsent_elim {c x : String} {l : List String}
    (h : c ∈ insertIfAbsent x l) : c ∈ l ∨ c = x := by
  unfold insertIfAbsent at h
  split at h
  · exact Or.inl h
  · rcases List.mem_append.mp h with h1 | h1
    · exact Or.inl h1
    · exact Or.inr (List.mem_singleton.mp h1)

/-- A substring capture, packed as `<sub>.o`, is a line container candidate. -/
theorem capture_mem_lineContainers (line g : List Char)
    (hshape : ∃ i k, g = (line.drop i).take k) :
    String.mk g ++ ".o" ∈ lineContainers line := by
  rcases hshape with ⟨i, k, rfl⟩
  exact List.mem_map_of_mem _ (takeDrop_mem_substrsC line i k)

theorem applyR1_containers (target : List Char) (acc : ScanResult)
    (line : List Char) : (applyR1 target acc line).containers = acc.containers := by
  unfold applyR1
  split <;> rfl

theorem applyR2_containers (target : List Char) (acc : ScanResult)
    (line : List Char) (c : String)
    (h : c ∈ (applyR2 target acc line).containers) :
    c ∈ acc.containers ∨ c ∈ lineContainers line := by
  unfold applyR2 at h
  split at h
  · next g1 cfg? heq =>
    have hg : ∃ i k, g1 = (line.drop i).take k :=
      r2FindFrom_shape line none target g1 cfg? heq
    split at h
    · rcases mem_insertIfAbsent_elim h with h1 | h1
      · exact Or.inl h1
      · exact Or.inr (h1 ▸ capture_mem_lineContainers line g1 hg)
    · rcases mem_insertIfAbsent_elim h with h1 | h1
      · exact Or.inl h1
      · exact Or.inr (h1 ▸ capture_mem_lineContainers line g1 hg)
  · exact Or.inl h

theorem applyR3_containers (target : List Char) (acc : ScanResult)
    (line : List Char) (c : String)
    (h : c ∈ (applyR3 target acc line).containers) :
    c ∈ acc.containers ∨ c ∈ lineContainers line := by
  unfold applyR3 at h
  split at h
  · next g1 heq =>
    rcases mem_insertIfAbsent_elim h with h1 | h1
    · exact Or.inl h1
    · exact Or.inr (h1 ▸ capture_mem_lineContainers line g1
        (r3FindFrom_shape line none target g1 heq))
  · exact Or.inl h

theorem applyR4_containers (target : List Char) (acc : ScanResult)
    (line : List Char) (c : String)
    (h : c ∈ (applyR4 target acc line).containers) :
    c ∈ acc.containers ∨ c ∈ lineContainers line := by
  unfold applyR4 at h
  split at h
  · next g1 cfg heq =>
    rcases mem_insertIfAbsent_elim h with h1 | h1
    · exact Or.inl h1
    · exact Or.inr (h1 ▸ capture_mem_lineContainers line g1
        (r4FindFrom_shape line none target g1 cfg heq))
  · exact Or.inl h

theorem applyR5_containers (subdir : Option String) (acc : ScanResult)
    (line : List Char) : (applyR5 subdir acc line).containers = acc.containers := by
  unfold applyR5
  split
  · split <;> rfl
  · rfl

theorem scanLine_containers (tm : Bool) (target : List Char)
    (subdir : Option String) (acc : ScanResult) (line : List Char) (c : String)
    (h : c ∈ (scanLine tm target subdir acc line).containers) :
    c ∈ acc.containers ∨ c ∈ lineContainers line := by
  unfold scanLine at h
  rw [applyR5_containers] at h
  split at h
  · rcases applyR4_containers target _ line c h with h1 | h1
    · rcases applyR3_containers target _ line c h1 with h2 | h2
      · rcases applyR2_containers target _ line c h2 with h3 | h3
        · rw [applyR1_containers] at h3
          exact Or.inl h3
        · exact Or.inr h3
      · exact Or.inr h2
    · exact Or.inr h1
  · exact Or.inl h

theorem scanFold_containers (tm : Bool) (target : List Char)
    (subdir : Option String) :
    ∀ (lines : List (List Char)) (acc : ScanResult) (c : String),
      c ∈ ((lines.foldl (scanLine tm target subdir) acc)).containers →
      c ∈ acc.containers ∨ ∃ line ∈ lines, c ∈ lineContainers line
  | [], _, _, h => Or.inl h
  | l :: r, acc, c, h => by
    rcases scanFold_containers tm target subdir r
      (scanLine tm target subdir acc l) c h with h1 | ⟨line, hline, hc⟩
    · rcases scanLine_containers tm target subdir acc l c h1 with h2 | h2
      · exact Or.inl h2
      · exact Or.inr ⟨l, List.mem_cons_self _ _, h2⟩
    · exact Or.inr ⟨line, List.mem_cons_of_mem _ hline, hc⟩

/-- Every container reported by a scan is a substring candidate of one of
the Makefile's logical lines. -/
theorem scan_containers_spec (fs : Fs) (mf : FPath) (target : String)
    (subdir : Option String) (c : String)
    (h : c ∈ (scan_makefile_for_targets fs mf target subdir).containers) :
    ∃ line ∈ read_makefile_lines fs mf, c ∈ lineContainers line := by
  unfold scan_makefile_for_targets at h
  dsimp only [] at h
  split at h
  · cases h
  · split at h
    · cases h
    · rcases scanFold_containers _ _ _ (read_makefile_lines fs mf) ⟨[], []⟩ c h
        with h1 | h1
      · cases h1
      · exact h1

/-- Containers reported while processing a directory's Makefile are in the
file-system universe. -/
theorem scan_containers_universe (fs : Fs) (mf : FPath) (target : String)
    (subdir : Option String) (c : String)
    (h : c ∈ (scan_makefile_for_targets fs mf target subdir).containers) :
    c ∈ universeList fs := by
  rcases scan_containers_spec fs mf target subdir c h with ⟨line, hline, hc⟩
  exact mem_universe_of_line fs mf line hline c hc

/-! Queue provenance: every enqueued tuple carries a fresh universe
container as its target. -/

theorem conFold_queue_spec (tgt : String) (dir : FPath) (viaC srcT : String) :
    ∀ (cs : List String) (s : TState) (x : QItem),
      x ∈ (cs.foldl (conStep tgt dir viaC srcT) s).queue →
      x ∈ s.queue ∨
        (x.target ∈ cs ∧ x.target ∉ s.objects ∧
          x.target ∈ (cs.foldl (conStep tgt dir viaC srcT) s).objects)
  | [], _, _, h => Or.inl h
  | c :: r, s, x, h => by
    have hext : StExt (conStep tgt dir viaC srcT s c)
        (r.foldl (conStep tgt dir viaC srcT) (conStep tgt dir viaC srcT s c)) :=
      foldl_ext _ (fun s' x' => conStep_ext tgt dir viaC srcT s' x') r _
    rcases conFold_queue_spec tgt dir viaC srcT r _ x h with h1 | ⟨ht, hno, hin⟩
    · revert h1
      unfold conStep
      split
      · exact fun h1 => Or.inl h1
      · next hnotmem =>
        intro h1
        rcases List.mem_append.mp h1 with h2 | h2
        · exact Or.inl h2
        · rcases List.mem_singleton.mp h2 with rfl
          refine Or.inr ⟨List.mem_cons_self _ _, hnotmem, ?_⟩
          refine hext.2.1 ?_
          show c ∈ (conStep tgt dir viaC srcT s c).objects
          unfold conStep
          rw [if_neg hnotmem]
          exact List.mem_append_right _ (List.mem_singleton.mpr rfl)
    · refine Or.inr ⟨List.mem_cons_of_mem _ ht, ?_, hin⟩
      intro hmem
      exact hno ((conStep_ext tgt dir viaC srcT s c).2.1 hmem)

theorem symFold_visited (a b : String) :
    ∀ (l : List String) (s : TState),
      (l.foldl (symStep a b) s).visited = s.visited
  | [], _ => rfl
  | x :: r, s => symFold_visited a b r (symStep a b s x)

theorem conStep_visited (tgt : String) (dir : FPath) (viaC srcT : String)
    (s : TState) (c : String) :
    (conStep tgt dir viaC srcT s c).visited = s.visited := by
  unfold conStep
  split <;> rfl

theorem conFold_visited (tgt : String) (dir : FPath) (viaC srcT : String) :
    ∀ (cs : List String) (s : TState),
      (cs.foldl (conStep tgt dir viaC srcT) s).visited = s.visited
  | [], _ => rfl
  | c :: r, s => by
    rw [List.foldl_cons, conFold_visited tgt dir viaC srcT r _,
      conStep_visited]

theorem processItem_queue_spec (fs : Fs) (fd : String) (st : TState)
    (it : QItem) (x : QItem) (h : x ∈ (processItem fs fd st it).queue) :
    x ∈ st.queue ∨
      (x.target ∈ universeList fs ∧ x.target ∉ st.objects ∧
        x.target ∈ (processItem fs fd st it).objects) := by
  revert h
  unfold processItem
  split
  · exact fun h => Or.inl h
  · split
    · exact fun h => Or.inl h
    · next mf hmf =>
      intro h
      rcases conFold_queue_spec it.target it.dir _ it.srcT _ _ x h
        with h1 | ⟨ht, hno, hin⟩
      · rw [symFold_queue] at h1
        exact Or.inl h1
      · refine Or.inr ⟨scan_containers_universe fs mf it.target it.hint
          x.target ht, ?_, hin⟩
        rw [symFold_objects] at hno
        exact hno

theorem batchFold_queue_spec (fs : Fs) (fd : String) (base : TState) :
    ∀ (bs : List QItem) (s : TState),
      base.objects ⊆ s.objects →
      (∀ x ∈ s.queue, x.target ∈ universeList fs ∧ x.target ∉ base.objects ∧
        x.target ∈ s.objects) →
      ∀ x ∈ (bs.foldl (processItem fs fd) s).queue,
        x.target ∈ universeList fs ∧ x.target ∉ base.objects ∧
          x.target ∈ (bs.foldl (processItem fs fd) s).objects
  | [], _, _, hq, x, hx => hq x hx
  | b :: r, s, hbase, hq, x, hx => by
    have hext := processItem_ext fs fd s b
    refine batchFold_queue_spec fs fd base r (processItem fs fd s b)
      (hbase.trans hext.2.1) ?_ x hx
    intro y hy
    rcases processItem_queue_spec fs fd s b y hy with h1 | ⟨hu, hno, hin⟩
    · rcases hq y h1 with ⟨hu, hno, hin⟩
      exact ⟨hu, hno, hext.2.1 hin⟩
    · exact ⟨hu, fun hmem => hno (hbase hmem), hin⟩

theorem processBatch_queue_spec (fs : Fs) (fd : String) (st : TState)
    (x : QItem) (hx : x ∈ (processBatch fs fd st).queue) :
    x.target ∈ universeList fs ∧ x.target ∉ st.objects ∧
      x.target ∈ (processBatch fs fd st).objects := by
  unfold processBatch at hx ⊢
  exact batchFold_queue_spec fs fd st st.queue { st with queue := [] }
    (fun _ h => h) (by intro y hy; cases hy) x hx

/-- Each batch that leaves work strictly shrinks the measure. -/
theorem muObj_decreases (fs : Fs) (fd : String) (st : TState)
    (h : (processBatch fs fd st).queue ≠ []) :
    muObj fs (processBatch fs fd st) < muObj fs st := by
  rcases List.exists_mem_of_ne_nil _ h with ⟨x, hx⟩
  rcases processBatch_queue_spec fs fd st x hx with ⟨hu, hnotin, hin⟩
  unfold muObj
  refine length_filter_lt _ _ ?_ x.target _ hu ?_ ?_
  · intro c hc
    rw [decide_eq_true_eq] at hc ⊢
    exact fun hmem => hc ((processBatch_ext fs fd st).2.1 hmem)
  · rw [decide_eq_true_eq]
    exact hnotin
  · rw [decide_eq_false_iff_not]
    exact fun hcon => hcon hin

/-- The loop drains the queue within `μ + 1` outer iterations. -/
theorem traceLoop_drains (fs : Fs) (fd : String) :
    ∀ (n : Nat) (st : TState), muObj fs st ≤ n →
      (traceLoop fs fd (n + 1) st).queue = [] := by
  intro n
  induction n with
  | zero =>
    intro st hmu
    rw [traceLoop]
    split
    · next hq => simpa using hq
    · show (traceLoop fs fd 0 (processBatch fs fd st)).queue = []
      rw [traceLoop]
      by_contra hne
      have := muObj_decreases fs fd st hne
      omega
  | succ m ih =>
    intro st hmu
    rw [traceLoop]
    split
    · next hq => simpa using hq
    · by_cases hq2 : (processBatch fs fd st).queue = []
      · rw [traceLoop_of_empty fs fd _ _ hq2]
        exact hq2
      · have hlt := muObj_decreases fs fd st hq2
        exact ih (processBatch fs fd st) (by omega)

/-! One-visit invariant: the visited list stays duplicate-free. -/

theorem nodup_concat_str {a : String} {l : List String} (h : l.Nodup)
    (hna : a ∉ l) : (l ++ [a]).Nodup := by
  simp [List.nodup_append, h, hna]

theorem processItem_nodup (fs : Fs) (fd : String) (st : TState) (it : QItem)
    (h : st.visited.Nodup) : (processItem fs fd st it).visited.Nodup := by
  unfold processItem
  split
  · exact h
  · next hnv =>
    split
    · exact nodup_concat_str h hnv
    · rw [conFold_visited, symFold_visited]
      exact nodup_concat_str h hnv

theorem batchFold_nodup (fs : Fs) (fd : String) :
    ∀ (bs : List QItem) (s : TState), s.visited.Nodup →
      (bs.foldl (processItem fs fd) s).visited.Nodup
  | [], _, h => h
  | b :: r, s, h =>
    batchFold_nodup fs fd r (processItem fs fd s b)
      (processItem_nodup fs fd s b h)

theorem traceLoop_nodup (fs : Fs) (fd : String) :
    ∀ (f : Nat) (st : TState), st.visited.Nodup →
      (traceLoop fs fd f st).visited.Nodup
  | 0, _, h => h
  | f + 1, st, h => by
    rw [traceLoop]
    split
    · exact h
    · exact traceLoop_nodup fs fd f (processBatch fs fd st)
        (batchFold_nodup fs fd st.queue { st with queue := [] } h)

/-- The fuel used by `trace_kernel_config` drains the queue (helper shared
by the termination and reachability arguments). -/
theorem traceFinal_queue_nil (fs : Fs) (root : FPath) (relFile : String) :
    (traceFinalState fs root relFile).queue = [] := by
  have hmu : muObj fs (traceInitState root relFile) ≤ (universeList fs).length :=
    List.length_filter_le _ _
  have hbound := universe_length_le fs
  have hdrain := traceLoop_drains fs (fileDirStrOf root relFile)
    (muObj fs (traceInitState root relFile)) (traceInitState root relFile)
    (Nat.le_refl _)
  have hsplit : boundFuel fs =
      (muObj fs (traceInitState root relFile) + 1) +
        (boundFuel fs - muObj fs (traceInitState root relFile) - 1) := by
    omega
  have hfin : traceFinalState fs root relFile =
      traceLoop fs (fileDirStrOf root relFile)
        (muObj fs (traceInitState root relFile) + 1)
        (traceInitState root relFile) := by
    unfold traceFinalState
    rw [hsplit, traceLoop_fuel_eq fs (fileDirStrOf root relFile) _ _ hdrain]
  rw [hfin]
  exact hdrain

/-- **C8.**  The BFS terminates on every input: the fuel `boundFuel fs`
used by `trace_kernel_config` provably drains the queue, adding fuel does
not change the final state, and the visited list — which records exactly
the `(target, directory)` keys that were expanded against a Makefile — is
duplicate-free, so each pair is expanded at most once. -/
theorem claim_C8_bfs_termination (fs : Fs) (root : FPath) (relFile : String) :
    (traceFinalState fs root relFile).queue = [] ∧
    (∀ k, traceLoop fs (fileDirStrOf root relFile) (boundFuel fs + k)
        (traceInitState root relFile) = traceFinalState fs root relFile) ∧
    (traceFinalState fs root relFile).visited.Nodup := by
  refine ⟨traceFinal_queue_nil fs root relFile, ?_, ?_⟩
  · intro k
    exact traceLoop_fuel_eq fs (fileDirStrOf root relFile) (boundFuel fs)
      (traceInitState root relFile) (traceFinal_queue_nil fs root relFile) k
  · exact traceLoop_nodup fs (fileDirStrOf root relFile) (boundFuel fs)
      (traceInitState root relFile) List.nodup_nil

/-! ## Claim C10 machinery: the R1/R2 overlap on plain object rules

On a line of the literal shape `obj-$(CONFIG_…) += <target>` the R1 regex
captures the symbol and the R2 regex also matches, with its container-name
class matching the literal prefix `obj`, so the scan reports container
`obj.o` as well. -/

theorem lpre_refl : ∀ l : List Char, lpre l l = true
  | [] => rfl
  | c :: r => by simp [lpre, lpre_refl r]

theorem takeWhile_cons_pos (p : Char → Bool) (a : Char) (l : List Char)
    (h : p a = true) : (a :: l).takeWhile p = a :: l.takeWhile p := by
  simp [List.takeWhile, h]

theorem takeWhile_cons_neg (p : Char → Bool) (a : Char) (l : List Char)
    (h : p a = false) : (a :: l).takeWhile p = [] := by
  simp [List.takeWhile, h]

/-- The maximal class run over `R ++ (c :: l)` is `R` when `c` stops it. -/
theorem takeWhile_append_stop (p : Char → Bool) :
    ∀ (R : List Char) (c : Char) (l : List Char),
      (∀ x ∈ R, p x = true) → p c = false →
      (R ++ (c :: l)).takeWhile p = R
  | [], c, l, _, hc => by simpa using takeWhile_cons_neg p c l hc
  | a :: r, c, l, hall, hc => by
    have ha := hall a (List.mem_cons_self _ _)
    rw [List.cons_append, takeWhile_cons_pos p a _ ha,
      takeWhile_append_stop p r c l
        (fun x hx => hall x (List.mem_cons_of_mem _ hx)) hc]

theorem parseConfigParen_canonical (R rest : List Char) (hR : R ≠ [])
    (hRc : ∀ c ∈ R, isConfigChar c = true) :
    parseConfigParen ("CONFIG_".data ++ (R ++ (')' :: rest))) =
      some ("CONFIG_".data ++ R, rest) := by
  unfold parseConfigParen
  rw [if_pos (show lpre "CONFIG_".data
    ("CONFIG_".data ++ (R ++ (')' :: rest))) = true from
      lpre_append "CONFIG_".data (R ++ (')' :: rest)))]
  have hdrop : ("CONFIG_".data ++ (R ++ (')' :: rest))).drop 7 =
      R ++ (')' :: rest) := rfl
  have htw : (R ++ (')' :: rest)).takeWhile isConfigChar = R :=
    takeWhile_append_stop isConfigChar R ')' rest hRc (by decide)
  have hdrop2 : (R ++ (')' :: rest)).drop R.length = ')' :: rest :=
    List.drop_left R (')' :: rest)
  simp only [hdrop, htw, hdrop2]
  rw [if_neg (by simpa using hR)]

theorem parseAssign_plus (allowColon : Bool) (tail : List Char) :
    parseAssign allowColon (' ' :: '+' :: '=' :: ' ' :: tail) =
      some (' ', tail) := by
  unfold parseAssign
  have hdw : (' ' :: '+' :: '=' :: ' ' :: tail).dropWhile isSpaceChar =
      '+' :: '=' :: ' ' :: tail := by
    rw [List.dropWhile_cons_of_pos (by decide),
      List.dropWhile_cons_of_neg (by decide)]
  rw [hdw]
  rfl

theorem hasBoundedOcc_self (t : List Char) (hh : owc t.head? = true)
    (hl : owc t.getLast? = true) : hasBoundedOcc (some ' ') t t = true := by
  unfold hasBoundedOcc
  have h1 : lpre t t = true := lpre_refl t
  have h2 : wordBoundary (some ' ') t.head? = true := by
    rw [wordBoundary, hh]
    rfl
  have h3 : wordBoundary t.getLast? ((t.drop t.length).head?) = true := by
    rw [List.drop_length]
    rw [wordBoundary, hl]
    rfl
  rw [h1, h2, h3]
  simp

theorem objRuleAt_canonical (allowColon : Bool) (R Tc : List Char)
    (hR : R ≠ []) (hRc : ∀ c ∈ R, isConfigChar c = true)
    (hTh : owc Tc.head? = true) (hTl : owc Tc.getLast? = true) :
    objRuleAt allowColon
      ("obj-$(".data ++
        ("CONFIG_".data ++ (R ++ (')' :: ' ' :: '+' :: '=' :: ' ' :: Tc)))) Tc =
      some ("CONFIG_".data ++ R) := by
  unfold objRuleAt
  rw [if_pos (show lpre "obj-$(".data _ = true from lpre_append "obj-$(".data _)]
  have hdrop6 : ("obj-$(".data ++
      ("CONFIG_".data ++ (R ++ (')' :: ' ' :: '+' :: '=' :: ' ' :: Tc)))).drop 6 =
      "CONFIG_".data ++ (R ++ (')' :: ' ' :: '+' :: '=' :: ' ' :: Tc)) := rfl
  rw [hdrop6,
    parseConfigParen_canonical R (' ' :: '+' :: '=' :: ' ' :: Tc) hR hRc]
  simp only [parseAssign_plus allowColon Tc]
  rw [hasBoundedOcc_self Tc hTh hTl]
  rfl

/-- The head scan position succeeds, so the leftmost-position search for
R1/R5 returns its captures. -/
theorem objFindFrom_head (allowColon : Bool) (prev : Option Char)
    (c : Char) (rest t cfg : List Char)
    (hb : wordBoundary prev (some c) = true)
    (hr : objRuleAt allowColon (c :: rest) t = some cfg) :
    objFindFrom allowColon prev (c :: rest) t = some cfg := by
  rw [objFindFrom, if_pos hb, hr]

theorem r2FindFrom_head (prev : Option Char) (c : Char)
    (rest t : List Char) (res : List Char × Option (List Char))
    (hb : wordBoundary prev (some c) = true)
    (hk : r2TryK (c :: rest) t ((c :: rest).takeWhile isContainerChar).length =
      some res) : r2FindFrom prev (c :: rest) t = some res := by
  rw [r2FindFrom, if_pos hb, hk]

/-- R2 matches the canonical line with container group `obj`. -/
theorem r2TryK_canonical (R Tc : List Char) (hR : R ≠ [])
    (hRc : ∀ c ∈ R, isConfigChar c = true)
    (hTh : owc Tc.head? = true) (hTl : owc Tc.getLast? = true) :
    r2TryK
      ("obj-$(".data ++
        ("CONFIG_".data ++ (R ++ (')' :: ' ' :: '+' :: '=' :: ' ' :: Tc)))) Tc 4 =
      some ("obj".data, some ("CONFIG_".data ++ R)) := by
  have h4 : r2AttemptAt
      ("obj-$(".data ++
        ("CONFIG_".data ++ (R ++ (')' :: ' ' :: '+' :: '=' :: ' ' :: Tc)))) Tc 4 =
      none := rfl
  have hdrop3 : ("obj-$(".data ++
      ("CONFIG_".data ++ (R ++ (')' :: ' ' :: '+' :: '=' :: ' ' :: Tc)))).drop 3 =
      '-' :: '$' :: '(' ::
        ("CONFIG_".data ++ (R ++ (')' :: ' ' :: '+' :: '=' :: ' ' :: Tc))) := rfl
  have htake3 : ("obj-$(".data ++
      ("CONFIG_".data ++ (R ++ (')' :: ' ' :: '+' :: '=' :: ' ' :: Tc)))).take 3 =
      "obj".data := rfl
  have h3 : r2AttemptAt
      ("obj-$(".data ++
        ("CONFIG_".data ++ (R ++ (')' :: ' ' :: '+' :: '=' :: ' ' :: Tc)))) Tc 3 =
      some ("obj".data, some ("CONFIG_".data ++ R)) := by
    unfold r2AttemptAt
    rw [hdrop3]
    show (match r2Alt ('$' :: '(' ::
        ("CONFIG_".data ++ (R ++ (')' :: ' ' :: '+' :: '=' :: ' ' :: Tc)))) with
      | some (cfg?, r2) =>
        match parseAssign true r2 with
        | some (sp, r3) =>
            if hasBoundedOcc (some sp) r3 Tc then
              some (("obj-$(".data ++
                ("CONFIG_".data ++
                  (R ++ (')' :: ' ' :: '+' :: '=' :: ' ' :: Tc)))).take 3, cfg?)
            else none
        | none => none
      | none => none) = some ("obj".data, some ("CONFIG_".data ++ R))
    rw [show r2Alt ('$' :: '(' ::
        ("CONFIG_".data ++ (R ++ (')' :: ' ' :: '+' :: '=' :: ' ' :: Tc)))) =
        match parseConfigParen
          ("CONFIG_".data ++ (R ++ (')' :: ' ' :: '+' :: '=' :: ' ' :: Tc))) with
        | some (cfg, r2) => some (some cfg, r2)
        | none => none from rfl,
      parseConfigParen_canonical R (' ' :: '+' :: '=' :: ' ' :: Tc) hR hRc]
    simp only [parseAssign_plus true Tc]
    rw [hasBoundedOcc_self Tc hTh hTl]
    simp only [if_true, htake3]
  rw [r2TryK, h4, r2TryK, h3]

theorem r1Find_canonical (R Tc : List Char) (hR : R ≠ [])
    (hRc : ∀ c ∈ R, isConfigChar c = true)
    (hTh : owc Tc.head? = true) (hTl : owc Tc.getLast? = true) :
    r1Find
      ("obj-$(".data ++
        ("CONFIG_".data ++ (R ++ (')' :: ' ' :: '+' :: '=' :: ' ' :: Tc)))) Tc =
      some ("CONFIG_".data ++ R) := by
  show objFindFrom false none
    ('o' :: ("bj-$(".data ++
      ("CONFIG_".data ++ (R ++ (')' :: ' ' :: '+' :: '=' :: ' ' :: Tc))))) Tc = _
  exact objFindFrom_head false none 'o' _ Tc _ (by decide)
    (objRuleAt_canonical false R Tc hR hRc hTh hTl)

theorem r2Find_canonical (R Tc : List Char) (hR : R ≠ [])
    (hRc : ∀ c ∈ R, isConfigChar c = true)
    (hTh : owc Tc.head? = true) (hTl : owc Tc.getLast? = true) :
    r2Find
      ("obj-$(".data ++
        ("CONFIG_".data ++ (R ++ (')' :: ' ' :: '+' :: '=' :: ' ' :: Tc)))) Tc =
      some ("obj".data, some ("CONFIG_".data ++ R)) := by
  show r2FindFrom none
    ('o' :: ("bj-$(".data ++
      ("CONFIG_".data ++ (R ++ (')' :: ' ' :: '+' :: '=' :: ' ' :: Tc))))) Tc = _
  exact r2FindFrom_head none 'o' _ Tc _ (by decide)
    (r2TryK_canonical R Tc hR hRc hTh hTl)

/-! Membership monotonicity of the per-rule applications. -/

theorem applyR1_configs_sub (t : List Char) (acc : ScanResult) (l : List Char) :
    acc.configs_for_target ⊆ (applyR1 t acc l).configs_for_target := by
  unfold applyR1
  split
  · exact subset_insertIfAbsent _ _
  · exact fun _ h => h

theorem applyR2_sub (t : List Char) (acc : ScanResult) (l : List Char) :
    acc.configs_for_target ⊆ (applyR2 t acc l).configs_for_target ∧
      acc.containers ⊆ (applyR2 t acc l).containers := by
  unfold applyR2
  split
  · split
    · exact ⟨subset_insertIfAbsent _ _, subset_insertIfAbsent _ _⟩
    · exact ⟨fun _ h => h, subset_insertIfAbsent _ _⟩
  · exact ⟨fun _ h => h, fun _ h => h⟩

theorem applyR3_sub (t : List Char) (acc : ScanResult) (l : List Char) :
    acc.configs_for_target ⊆ (applyR3 t acc l).configs_for_target ∧
      acc.containers ⊆ (applyR3 t acc l).containers := by
  unfold applyR3
  split
  · exact ⟨fun _ h => h, subset_insertIfAbsent _ _⟩
  · exact ⟨fun _ h => h, fun _ h => h⟩

theorem applyR4_sub (t : List Char) (acc : ScanResult) (l : List Char) :
    acc.configs_for_target ⊆ (applyR4 t acc l).configs_for_target ∧
      acc.containers ⊆ (applyR4 t acc l).containers := by
  unfold applyR4
  split
  · exact ⟨subset_insertIfAbsent _ _, subset_insertIfAbsent _ _⟩
  · exact ⟨fun _ h => h, fun _ h => h⟩

theorem applyR5_sub (sd : Option String) (acc : ScanResult) (l : List Char) :
    acc.configs_for_target ⊆ (applyR5 sd acc l).configs_for_target ∧
      acc.containers ⊆ (applyR5 sd acc l).containers := by
  unfold applyR5
  split
  · split
    · exact ⟨subset_insertIfAbsent _ _, fun _ h => h⟩
    · exact ⟨fun _ h => h, fun _ h => h⟩
  · exact ⟨fun _ h => h, fun _ h => h⟩

theorem scanLine_sub (tm : Bool) (t : List Char) (sd : Option String)
    (acc : ScanResult) (l : List Char) :
    acc.configs_for_target ⊆ (scanLine tm t sd acc l).configs_for_target ∧
      acc.containers ⊆ (scanLine tm t sd acc l).containers := by
  unfold scanLine
  split
  · refine ⟨?_, ?_⟩
    · exact ((((applyR1_configs_sub t acc l).trans
        (applyR2_sub t _ l).1).trans (applyR3_sub t _ l).1).trans
          (applyR4_sub t _ l).1).trans (applyR5_sub sd _ l).1
    · have h1 : acc.containers ⊆ (applyR1 t acc l).containers := by
        rw [applyR1_containers]
        exact fun _ h => h
      exact (((h1.trans (applyR2_sub t _ l).2).trans
        (applyR3_sub t _ l).2).trans (applyR4_sub t _ l).2).trans
          (applyR5_sub sd _ l).2
  · exact (applyR5_sub sd acc l)

/-- On the canonical line with `tm = true`, the scan of one line reports
both the R1 symbol and the R2 container `obj.o`. -/
theorem scanLine_canonical (sd : Option String)
    (acc : ScanResult) (R Tc : List Char) (hR : R ≠ [])
    (hRc : ∀ c ∈ R, isConfigChar c = true)
    (hTh : owc Tc.head? = true) (hTl : owc Tc.getLast? = true) :
    (String.mk "obj".data ++ ".o") ∈
        (scanLine true Tc sd acc
          ("obj-$(".data ++
            ("CONFIG_".data ++
              (R ++ (')' :: ' ' :: '+' :: '=' :: ' ' :: Tc))))).containers ∧
      String.mk ("CONFIG_".data ++ R) ∈
        (scanLine true Tc sd acc
          ("obj-$(".data ++
            ("CONFIG_".data ++
              (R ++ (')' :: ' ' :: '+' :: '=' :: ' ' :: Tc))))).configs_for_target := by
  unfold scanLine
  rw [if_pos rfl]
  set line := ("obj-$(".data ++
    ("CONFIG_".data ++ (R ++ (')' :: ' ' :: '+' :: '=' :: ' ' :: Tc)))) with hline
  have hc1 : String.mk ("CONFIG_".data ++ R) ∈
      (applyR1 Tc acc line).configs_for_target := by
    unfold applyR1
    rw [hline, r1Find_canonical R Tc hR hRc hTh hTl]
    exact mem_insertIfAbsent_self _ _
  have hc2 : (String.mk "obj".data ++ ".o") ∈
      (applyR2 Tc (applyR1 Tc acc line) line).containers := by
    unfold applyR2
    rw [hline, r2Find_canonical R Tc hR hRc hTh hTl]
    exact mem_insertIfAbsent_self _ _
  constructor
  · exact (applyR5_sub sd _ line).2
      ((applyR4_sub Tc _ line).2 ((applyR3_sub Tc _ line).2 hc2))
  · exact (applyR5_sub sd _ line).1
      ((applyR4_sub Tc _ line).1 ((applyR3_sub Tc _ line).1
        ((applyR2_sub Tc _ line).1 hc1)))

theorem scanFold_sub (tm : Bool) (t : List Char) (sd : Option String) :
    ∀ (lines : List (List Char)) (acc : ScanResult),
      acc.configs_for_target ⊆
          ((lines.foldl (scanLine tm t sd) acc)).configs_for_target ∧
        acc.containers ⊆ ((lines.foldl (scanLine tm t sd) acc)).containers
  | [], _ => ⟨fun _ h => h, fun _ h => h⟩
  | l :: r, acc =>
    ⟨(scanLine_sub tm t sd acc l).1.trans
        (scanFold_sub tm t sd r (scanLine tm t sd acc l)).1,
      (scanLine_sub tm t sd acc l).2.trans
        (scanFold_sub tm t sd r (scanLine tm t sd acc l)).2⟩

/-- Establish a membership at one line of the fold and keep it. -/
theorem scanFold_establish (tm : Bool) (t : List Char) (sd : Option String)
    (line0 : List Char) (x y : String)
    (hest : ∀ acc : ScanResult,
      x ∈ (scanLine tm t sd acc line0).containers ∧
        y ∈ (scanLine tm t sd acc line0).configs_for_target) :
    ∀ (lines : List (List Char)) (acc : ScanResult), line0 ∈ lines →
      x ∈ ((lines.foldl (scanLine tm t sd) acc)).containers ∧
        y ∈ ((lines.foldl (scanLine tm t sd) acc)).configs_for_target
  | [], _, h => absurd h (List.not_mem_nil _)
  | l :: r, acc, h => by
    rcases List.mem_cons.mp h with rfl | hmem
    · exact ⟨(scanFold_sub tm t sd r _).2 (hest acc).1,
        (scanFold_sub tm t sd r _).1 (hest acc).2⟩
    · exact scanFold_establish tm t sd line0 x y hest r _ hmem

/-! Substring containment facts for the early-out check. -/

theorem containsSub_here (pat y : List Char) : containsSub (pat ++ y) pat = true := by
  unfold containsSub
  rw [lpre_append]
  rfl

theorem containsSub_cons (c : Char) (z pat : List Char)
    (h : containsSub z pat = true) : containsSub (c :: z) pat = true := by
  show (lpre pat (c :: z) || containsSub z pat) = true
  rw [h]
  simp

theorem containsSub_append_right (pat : List Char) :
    ∀ (x z : List Char), containsSub z pat = true →
      containsSub (x ++ z) pat = true
  | [], _, h => h
  | c :: x, z, h => by
    show containsSub (c :: (x ++ z)) pat = true
    exact containsSub_cons c (x ++ z) pat (containsSub_append_right pat x z h)

theorem joinSp_split :
    ∀ (lines : List (List Char)) (l : List Char), l ∈ lines →
      ∃ x y, joinSp lines = x ++ (l ++ y)
  | [], _, h => absurd h (List.not_mem_nil _)
  | [l'], l, h => by
    rcases List.mem_singleton.mp h with rfl
    exact ⟨[], [], by simp [joinSp]⟩
  | l' :: h' :: t, l, hm => by
    rcases List.mem_cons.mp hm with rfl | hmem
    · refine ⟨[], ' ' :: joinSp (h' :: t), ?_⟩
      show l ++ ' ' :: joinSp (h' :: t) = [] ++ (l ++ (' ' :: joinSp (h' :: t)))
      simp
    · rcases joinSp_split (h' :: t) l hmem with ⟨x, y, hxy⟩
      refine ⟨l' ++ (' ' :: x), y, ?_⟩
      show l' ++ ' ' :: joinSp (h' :: t) = (l' ++ (' ' :: x)) ++ (l ++ y)
      rw [hxy]
      simp [List.append_assoc]

/-- The canonical line makes the substring early-out pass. -/
theorem targetsMentioned_canonical (lines : List (List Char)) (R Tc : List Char)
    (hline : ("obj-$(".data ++
      ("CONFIG_".data ++ (R ++ (')' :: ' ' :: '+' :: '=' :: ' ' :: Tc)))) ∈ lines) :
    containsSub (joinSp lines) Tc = true := by
  rcases joinSp_split lines _ hline with ⟨x, y, hxy⟩
  rw [hxy]
  refine containsSub_append_right Tc x _ ?_
  show containsSub ("obj-$(".data ++
    ("CONFIG_".data ++ (R ++ (')' :: ' ' :: '+' :: '=' :: ' ' :: Tc))) ++ y) Tc = true
  rw [List.append_assoc, List.append_assoc, List.append_assoc]
  refine containsSub_append_right Tc "obj-$(".data _ ?_
  refine containsSub_append_right Tc "CONFIG_".data _ ?_
  refine containsSub_append_right Tc R _ ?_
  show containsSub (')' :: ' ' :: '+' :: '=' :: ' ' :: (Tc ++ y)) Tc = true
  refine containsSub_cons _ _ _ (containsSub_cons _ _ _ (containsSub_cons _ _ _
    (containsSub_cons _ _ _ (containsSub_cons _ _ _ ?_))))
  exact containsSub_here Tc y

/-- A canonical `obj-$(CONFIG_…) += <target>` line makes the scan report
the symbol and the container `obj.o`. -/
theorem scan_makefile_canonical (fs : Fs) (mf : FPath) (T : String)
    (sd : Option String) (R : List Char) (hR : R ≠ [])
    (hRc : ∀ c ∈ R, isConfigChar c = true)
    (hTh : owc T.data.head? = true) (hTl : owc T.data.getLast? = true)
    (hline : ("obj-$(".data ++
      ("CONFIG_".data ++ (R ++ (')' :: ' ' :: '+' :: '=' :: ' ' :: T.data)))) ∈
        read_makefile_lines fs mf) :
    (String.mk "obj".data ++ ".o") ∈
        (scan_makefile_for_targets fs mf T sd).containers ∧
      String.mk ("CONFIG_".data ++ R) ∈
        (scan_makefile_for_targets fs mf T sd).configs_for_target := by
  have hT0 : T.data ≠ [] := by
    intro hnil
    rw [hnil] at hTh
    cases hTh
  have htm : containsSub (joinSp (read_makefile_lines fs mf)) T.data = true :=
    targetsMentioned_canonical _ R T.data hline
  unfold scan_makefile_for_targets
  dsimp only []
  rw [if_neg (by simpa using hT0), htm]
  rw [if_neg (by simp)]
  refine scanFold_establish true T.data sd _ _ _ ?_ _ ⟨[], []⟩ hline
  intro acc
  exact scanLine_canonical sd acc R T.data hR hRc hTh hTl

/-! Trace-level effects of the first (seed) scan. -/

theorem symFold_mem_symbols (a b : String) :
    ∀ (cfgs : List String) (s : TState) (c : String), c ∈ cfgs →
      c ∈ (cfgs.foldl (symStep a b) s).symbols
  | [], _, _, h => absurd h (List.not_mem_nil _)
  | x :: r, s, c, h => by
    rcases List.mem_cons.mp h with rfl | hmem
    · exact (foldl_ext _ (fun s' x' => symStep_ext a b s' x') r _).1
        (mem_insertIfAbsent_self c s.symbols)
    · exact symFold_mem_symbols a b r _ c hmem

theorem conStep_queue_sub (tgt : String) (dir : FPath) (viaC srcT : String)
    (s : TState) (c : String) : s.queue ⊆ (conStep tgt dir viaC srcT s c).queue := by
  unfold conStep
  split
  · exact fun _ h => h
  · exact fun _ h => List.mem_append_left _ h

theorem conFold_queue_sub (tgt : String) (dir : FPath) (viaC srcT : String) :
    ∀ (cs : List String) (s : TState),
      s.queue ⊆ (cs.foldl (conStep tgt dir viaC srcT) s).queue
  | [], _ => fun _ h => h
  | x :: r, s =>
    (conStep_queue_sub tgt dir viaC srcT s x).trans
      (conFold_queue_sub tgt dir viaC srcT r _)

theorem processItem_queue_sub (fs : Fs) (fd : String) (st : TState)
    (it : QItem) : st.queue ⊆ (processItem fs fd st it).queue := by
  unfold processItem
  split
  · exact fun _ h => h
  · split
    · exact fun _ h => h
    · refine fun x h => conFold_queue_sub _ _ _ _ _ _ ?_
      rw [symFold_queue]
      exact h

theorem foldl_processItem_queue_sub (fs : Fs) (fd : String) :
    ∀ (bs : List QItem) (s : TState),
      s.queue ⊆ (bs.foldl (processItem fs fd) s).queue
  | [], _ => fun _ h => h
  | b :: r, s =>
    (processItem_queue_sub fs fd s b).trans
      (foldl_processItem_queue_sub fs fd r _)

theorem conStep_not_mem_objects (tgt : String) (dir : FPath)
    (viaC srcT : String) (s : TState) (x c : String) (hno : c ∉ s.objects)
    (hne : c ≠ x) : c ∉ (conStep tgt dir viaC srcT s x).objects := by
  unfold conStep
  split
  · exact hno
  · intro h
    rcases List.mem_append.mp h with h1 | h1
    · exact hno h1
    · exact hne (List.mem_singleton.mp h1)

/-- Processing a fresh container adds the object, the provenance edge, and
the queue entry, and these persist through the rest of the fold. -/
theorem conFold_effect (tgt : String) (dir : FPath) (viaC srcT : String) :
    ∀ (cs : List String) (s : TState) (c : String), c ∈ cs → c ∉ s.objects →
      c ∈ (cs.foldl (conStep tgt dir viaC srcT) s).objects ∧
        (⟨tgt ++ "@" ++ pathStr dir, c ++ "@" ++ pathStr dir, viaC⟩ : TraceEdge) ∈
          (cs.foldl (conStep tgt dir viaC srcT) s).edges ∧
        (⟨c, dir, none, srcT⟩ : QItem) ∈
          (cs.foldl (conStep tgt dir viaC srcT) s).queue
  | [], _, _, h, _ => absurd h (List.not_mem_nil _)
  | x :: r, s, c, h, hno => by
    by_cases hcx : c = x
    · subst hcx
      have hstep : c ∈ (conStep tgt dir viaC srcT s c).objects ∧
          (⟨tgt ++ "@" ++ pathStr dir, c ++ "@" ++ pathStr dir, viaC⟩ :
            TraceEdge) ∈ (conStep tgt dir viaC srcT s c).edges ∧
          (⟨c, dir, none, srcT⟩ : QItem) ∈ (conStep tgt dir viaC srcT s c).queue := by
        unfold conStep
        rw [if_neg hno]
        exact ⟨List.mem_append_right _ (List.mem_singleton.mpr rfl),
          List.mem_append_right _ (List.mem_singleton.mpr rfl),
          List.mem_append_right _ (List.mem_singleton.mpr rfl)⟩
      have hext := foldl_ext _ (fun s' x' => conStep_ext tgt dir viaC srcT s' x') r
        (conStep tgt dir viaC srcT s c)
      exact ⟨hext.2.1 hstep.1, hext.2.2.1 hstep.2.1,
        conFold_queue_sub tgt dir viaC srcT r _ hstep.2.2⟩
    · rcases List.mem_cons.mp h with rfl | hmem
      · exact absurd rfl hcx
      · exact conFold_effect tgt dir viaC srcT r (conStep tgt dir viaC srcT s x) c
          hmem (conStep_not_mem_objects tgt dir viaC srcT s x c hno hcx)

/-- Unfolding of `processItem` on a fresh key with an existing Makefile. -/
theorem processItem_unfold (fs : Fs) (fd : String) (st : TState) (it : QItem)
    (mf : FPath) (hnv : keyOf it ∉ st.visited)
    (hmf : get_makefile_path fs it.dir = some mf) :
    processItem fs fd st it =
      (scan_makefile_for_targets fs mf it.target it.hint).containers.foldl
        (conStep it.target it.dir
          (if it.hint.isSome then "parent container includes target"
            else "container includes target") it.srcT)
        ((scan_makefile_for_targets fs mf it.target it.hint).configs_for_target.foldl
          (symStep (it.srcT ++ "@" ++ fd)
            (if it.hint.isSome then "parent directory gate" else "makefile rule"))
          { st with visited := st.visited ++ [keyOf it] }) := by
  unfold processItem
  rw [if_neg hnv, hmf]

/-- Every processed tuple's key ends up in the visited list. -/
theorem processItem_key_visited (fs : Fs) (fd : String) (st : TState)
    (it : QItem) : keyOf it ∈ (processItem fs fd st it).visited := by
  unfold processItem
  split
  · next h => exact h
  · split
    · exact List.mem_append_right _ (List.mem_singleton.mpr rfl)
    · rw [conFold_visited, symFold_visited]
      exact List.mem_append_right _ (List.mem_singleton.mpr rfl)

theorem batchFold_key_visited (fs : Fs) (fd : String) :
    ∀ (bs : List QItem) (s : TState) (it : QItem), it ∈ bs →
      keyOf it ∈ (bs.foldl (processItem fs fd) s).visited
  | [], _, _, h => absurd h (List.not_mem_nil _)
  | b :: r, s, it, h => by
    rcases List.mem_cons.mp h with rfl | hmem
    · exact (foldl_processItem_ext fs fd r _).2.2.2
        (processItem_key_visited fs fd s it)
    · exact batchFold_key_visited fs fd r _ it hmem

/-- When the loop drains the queue, every queued tuple's key is visited. -/
theorem queue_key_visited (fs : Fs) (fd : String) :
    ∀ (f : Nat) (st : TState), (traceLoop fs fd f st).queue = [] →
      ∀ it ∈ st.queue, keyOf it ∈ (traceLoop fs fd f st).visited
  | 0, st, hq, it, hmem => by
    rw [show traceLoop fs fd 0 st = st from rfl] at hq ⊢
    rw [hq] at hmem
    cases hmem
  | f + 1, st, hq, it, hmem => by
    rw [traceLoop] at hq ⊢
    split at hq
    · next hempty =>
      rw [List.isEmpty_iff] at hempty
      rw [hempty] at hmem
      cases hmem
    · next hempty =>
      rw [if_neg hempty]
      refine (traceLoop_ext fs fd f (processBatch fs fd st)).2.2.2 ?_
      unfold processBatch
      exact batchFold_key_visited fs fd st.queue _ it hmem

/-- **C10 (amended).**  Whenever the traced file's own Makefile holds a line
of the literal plain-object form `obj-$(CONFIG_…) += <seed object>`, the R1
rule reports the symbol, and the R2 container regex also matches the very
same line — its container-name class `[A-Za-z0-9_-]+` matching the literal
prefix `obj` — so the trace result additionally contains the container
object `obj.o`; and provided `obj.o` differs from the seed object itself
(else it is already present and no container step fires), the result also
contains the edge `<seed>@<dir> → obj.o@<dir>` and `obj.o` is expanded as a
further BFS target (its key is in the final visited set). -/
theorem claim_C10_obj_container (fs : Fs) (root : FPath) (relFile : String)
    (R : List Char) (T : String)
    (hex : fs.pathExists (srcPathOf root relFile) = true)
    (hT : T = objNameOf root relFile)
    (hline : ("obj-$(".data ++
      ("CONFIG_".data ++ (R ++ (')' :: ' ' :: '+' :: '=' :: ' ' :: T.data)))) ∈
        read_makefile_lines fs
          ((srcPathOf root relFile).dropLast ++ ["Makefile"]))
    (hR : R ≠ []) (hRc : ∀ c ∈ R, isConfigChar c = true)
    (hTh : owc T.data.head? = true) (hTl : owc T.data.getLast? = true)
    (hTo : T ≠ "obj.o") :
    String.mk ("CONFIG_".data ++ R) ∈
        (trace_kernel_config fs root relFile).symbols ∧
      "obj.o" ∈ (trace_kernel_config fs root relFile).objects ∧
      (⟨T ++ "@" ++ fileDirStrOf root relFile,
        "obj.o" ++ "@" ++ fileDirStrOf root relFile,
        "container includes target"⟩ : TraceEdge) ∈
        (trace_kernel_config fs root relFile).edges ∧
      ("obj.o" ++ "@" ++ fileDirStrOf root relFile) ∈
        (traceFinalState fs root relFile).visited := by
  subst hT
  set seedIt : QItem :=
    ⟨objNameOf root relFile, (srcPathOf root relFile).dropLast, none,
      objNameOf root relFile⟩ with hseedIt
  have hmfex : fs.pathExists
      ((srcPathOf root relFile).dropLast ++ ["Makefile"]) = true := by
    by_contra hno
    have hz : read_makefile_lines fs
        ((srcPathOf root relFile).dropLast ++ ["Makefile"]) = [] := by
      unfold read_makefile_lines
      rw [if_neg hno]
    rw [hz] at hline
    cases hline
  have hmf : get_makefile_path fs (srcPathOf root relFile).dropLast =
      some ((srcPathOf root relFile).dropLast ++ ["Makefile"]) := by
    unfold get_makefile_path
    dsimp only []
    rw [if_pos hmfex]
  have hscan := scan_makefile_canonical fs
    ((srcPathOf root relFile).dropLast ++ ["Makefile"])
    (objNameOf root relFile) none R hR hRc hTh hTl hline
  have hobjeq : String.mk "obj".data ++ ".o" = "obj.o" := rfl
  rw [hobjeq] at hscan
  have hnv : keyOf seedIt ∉
      ({ traceInitState root relFile with queue := [] } : TState).visited :=
    List.not_mem_nil _
  have hs1 := processItem_unfold fs (fileDirStrOf root relFile)
    { traceInitState root relFile with queue := [] } seedIt
    ((srcPathOf root relFile).dropLast ++ ["Makefile"]) hnv hmf
  have h1 : "obj.o" ∈ (processItem fs (fileDirStrOf root relFile)
        { traceInitState root relFile with queue := [] } seedIt).objects ∧
      (⟨objNameOf root relFile ++ "@" ++ fileDirStrOf root relFile,
        "obj.o" ++ "@" ++ fileDirStrOf root relFile,
        "container includes target"⟩ : TraceEdge) ∈
        (processItem fs (fileDirStrOf root relFile)
          { traceInitState root relFile with queue := [] } seedIt).edges ∧
      (⟨"obj.o", (srcPathOf root relFile).dropLast, none,
        objNameOf root relFile⟩ : QItem) ∈
        (processItem fs (fileDirStrOf root relFile)
          { traceInitState root relFile with queue := [] } seedIt).queue := by
    rw [hs1]
    refine conFold_effect _ _ _ _ _ _ "obj.o" hscan.1 ?_
    rw [symFold_objects]
    intro hmem
    exact hTo (List.mem_singleton.mp hmem).symm
  have h2 : String.mk ("CONFIG_".data ++ R) ∈
      (processItem fs (fileDirStrOf root relFile)
        { traceInitState root relFile with queue := [] } seedIt).symbols := by
    rw [hs1]
    refine (foldl_ext _ (fun s' x' => conStep_ext _ _ _ _ s' x') _ _).1 ?_
    exact symFold_mem_symbols _ _ _ _ _ hscan.2
  have hpb : processBatch fs (fileDirStrOf root relFile)
      (traceInitState root relFile) =
      ((traceInitState root relFile).queue.tail).foldl
        (processItem fs (fileDirStrOf root relFile))
        (processItem fs (fileDirStrOf root relFile)
          { traceInitState root relFile with queue := [] } seedIt) := rfl
  have hext2 := foldl_processItem_ext fs (fileDirStrOf root relFile)
    ((traceInitState root relFile).queue.tail)
    (processItem fs (fileDirStrOf root relFile)
      { traceInitState root relFile with queue := [] } seedIt)
  have hbobj : "obj.o" ∈ (processBatch fs (fileDirStrOf root relFile)
      (traceInitState root relFile)).objects := by
    rw [hpb]
    exact hext2.2.1 h1.1
  have hbedge : (⟨objNameOf root relFile ++ "@" ++ fileDirStrOf root relFile,
      "obj.o" ++ "@" ++ fileDirStrOf root relFile,
      "container includes target"⟩ : TraceEdge) ∈
      (processBatch fs (fileDirStrOf root relFile)
        (traceInitState root relFile)).edges := by
    rw [hpb]
    exact hext2.2.2.1 h1.2.1
  have hbsym : String.mk ("CONFIG_".data ++ R) ∈
      (processBatch fs (fileDirStrOf root relFile)
        (traceInitState root relFile)).symbols := by
    rw [hpb]
    exact hext2.1 h2
  have hbq : (⟨"obj.o", (srcPathOf root relFile).dropLast, none,
      objNameOf root relFile⟩ : QItem) ∈
      (processBatch fs (fileDirStrOf root relFile)
        (traceInitState root relFile)).queue := by
    rw [hpb]
    exact foldl_processItem_queue_sub fs (fileDirStrOf root relFile) _ _ h1.2.2
  obtain ⟨n, hn⟩ : ∃ n, boundFuel fs = n + 1 :=
    ⟨boundFuel fs - 1, by unfold boundFuel; omega⟩
  have hne : (traceInitState root relFile).queue ≠ [] := by
    rw [show (traceInitState root relFile).queue =
      seedIt :: (traceInitState root relFile).queue.tail from rfl]
    exact List.cons_ne_nil _ _
  have hloop : traceFinalState fs root relFile =
      traceLoop fs (fileDirStrOf root relFile) n
        (processBatch fs (fileDirStrOf root relFile)
          (traceInitState root relFile)) := by
    unfold traceFinalState
    rw [hn, traceLoop,
      if_neg (fun h => hne (List.isEmpty_iff.mp h))]
  have hfinext := traceLoop_ext fs (fileDirStrOf root relFile) n
    (processBatch fs (fileDirStrOf root relFile) (traceInitState root relFile))
  rw [trace_eq_of_found fs root relFile hex]
  refine ⟨?_, ?_, ?_, ?_⟩
  · rw [hloop]
    exact hfinext.1 hbsym
  · rw [hloop]
    exact hfinext.2.1 hbobj
  · rw [hloop]
    exact hfinext.2.2.1 hbedge
  · have hq0 : (traceLoop fs (fileDirStrOf root relFile) n
        (processBatch fs (fileDirStrOf root relFile)
          (traceInitState root relFile))).queue = [] := by
      rw [← hloop]
      exact traceFinal_queue_nil fs root relFile
    have hk := queue_key_visited fs (fileDirStrOf root relFile) n
      (processBatch fs (fileDirStrOf root relFile)
        (traceInitState root relFile)) hq0
      ⟨"obj.o", (srcPathOf root relFile).dropLast, none,
        objNameOf root relFile⟩ hbq
    rw [hloop]
    exact hk

/-- A tree where the traced file is `obj.c` itself, so the container
`obj.o` coincides with the seed object. -/
def fsObjSelf : Fs :=
  ⟨[(["r", "d", "obj.c"], []),
    (["r", "d", "Makefile"], ["obj-$(CONFIG_X) += obj.o"])]⟩

/-- **C10 counterexample.**  The claim promises that whenever an
`obj-$(CONFIG_X) += T` line matches the traced target `T`, the result also
holds an edge `T@dir → obj.o@dir` and enqueues `obj.o`.  Tracing `d/obj.c`
(seed object `obj.o`) over such a line, both R1 and R2 match, but `obj.o`
is already in `objects`, so no container edge is emitted at all: the edge
list is exactly the one symbol edge. -/
theorem claim_C10_cex :
    r1Find "obj-$(CONFIG_X) += obj.o".data "obj.o".data =
      some "CONFIG_X".data ∧
    r2Find "obj-$(CONFIG_X) += obj.o".data "obj.o".data =
      some ("obj".data, some "CONFIG_X".data) ∧
    (trace_kernel_config fsObjSelf ["r"] "d/obj.c").edges =
      [⟨"obj.o@r/d", "CONFIG:CONFIG_X", "makefile rule"⟩] ∧
    (⟨"obj.o" ++ "@" ++ "r/d", "obj.o" ++ "@" ++ "r/d",
      "container includes target"⟩ : TraceEdge) ∉
      (trace_kernel_config fsObjSelf ["r"] "d/obj.c").edges := by
  decide

/-- A tree exercising the amended C10 in the normal case. -/
def fsObjFoo : Fs :=
  ⟨[(["r", "d", "foo.c"], []),
    (["r", "d", "Makefile"], ["obj-$(CONFIG_X) += foo.o"])]⟩

/-- Witness for the amended C10 at a concrete tree. -/
theorem claim_C10_obj_container_w :
    "CONFIG_X" ∈ (trace_kernel_config fsObjFoo ["r"] "d/foo.c").symbols ∧
      "obj.o" ∈ (trace_kernel_config fsObjFoo ["r"] "d/foo.c").objects ∧
      (⟨"foo.o" ++ "@" ++ fileDirStrOf ["r"] "d/foo.c",
        "obj.o" ++ "@" ++ fileDirStrOf ["r"] "d/foo.c",
        "container includes target"⟩ : TraceEdge) ∈
        (trace_kernel_config fsObjFoo ["r"] "d/foo.c").edges ∧
      ("obj.o" ++ "@" ++ fileDirStrOf ["r"] "d/foo.c") ∈
        (traceFinalState fsObjFoo ["r"] "d/foo.c").visited :=
  claim_C10_obj_container fsObjFoo ["r"] "d/foo.c" "X".data "foo.o"
    (by decide) (by decide) (by decide) (by decide) (by decide)
    (by decide) (by decide) (by decide)

end KcfgVex
